import Mathlib

set_option maxHeartbeats 1000000

/-!
Verification of the utility helpers in src/js/src/utils/index.ts:

  sleep(ms)                 = new Promise((resolve) => setTimeout(resolve, ms))
  generateId()              = Math.random().toString(36).substr(2, 9)
  formatState(state)        = JSON.stringify(state, null, 2)
  logWithTimestamp(m, d?)   = console.log of a template prefixed by
                              new Date().toISOString(), with d attached when truthy

Strings are modelled as lists of Unicode scalar values (List Char).
JavaScript numbers are IEEE doubles; the development models the
integer-valued ones as Int, which is where all the claims live.
-/

/-! Character-level helpers shared by the models. -/

def isWsChar (c : Char) : Bool :=
  c == ' ' || c.toNat == 9 || c.toNat == 10 || c.toNat == 13

def isDigitChar (c : Char) : Bool :=
  48 ≤ c.toNat && c.toNat ≤ 57

def digitVal (c : Char) : Nat := c.toNat - 48

/-- Opening curly bracket character (written via its code point). -/
def lcurly : Char := Char.ofNat 123

/-- Closing curly bracket character (written via its code point). -/
def rcurly : Char := Char.ofNat 125

/-- Decimal digit character of `n % 10`. -/
def decChar (n : Nat) : Char :=
  match n % 10 with
  | 0 => '0' | 1 => '1' | 2 => '2' | 3 => '3' | 4 => '4'
  | 5 => '5' | 6 => '6' | 7 => '7' | 8 => '8' | _ => '9'

/-- Lower-case hexadecimal digit character of `n % 16`. -/
def hexChar (n : Nat) : Char :=
  match n % 16 with
  | 0 => '0' | 1 => '1' | 2 => '2' | 3 => '3' | 4 => '4'
  | 5 => '5' | 6 => '6' | 7 => '7' | 8 => '8' | 9 => '9'
  | 10 => 'a' | 11 => 'b' | 12 => 'c' | 13 => 'd' | 14 => 'e' | _ => 'f'

/-- Decimal digit characters of `n`, most significant first. -/
def natChars (n : Nat) : List Char :=
  if n < 10 then [decChar n]
  else natChars (n / 10) ++ [decChar n]
termination_by n
decreasing_by omega

/-- Decimal notation of an integer: optional minus sign, then digits.
JavaScript number-to-string conversion produces exactly this on integers
in the safe range (and JSON.stringify(-0) is "0", matching Int). -/
def intChars (i : Int) : List Char :=
  if i < 0 then '-' :: natChars i.natAbs else natChars i.natAbs

/-! The JavaScript value model. The helpers only ever inspect values through
JSON.stringify, truthiness and console attachment, so a value is modelled by
the constructors those operations distinguish. -/

inductive JsValue where
  | undef
  | null
  | bool (b : Bool)
  | num (n : Int)
  | str (s : List Char)
  | bigint (n : Int)
  | func
  | sym
  | arr (elems : List JsValue)
  | obj (fields : List (List Char × JsValue))

/-- Outcome of JSON.stringify on one property: a produced string, the
JavaScript value undefined (for undefined, functions and symbols), or a
thrown TypeError (for BigInt values; circular structures cannot arise in
an inductive value). -/
inductive SerResult where
  | ok (s : List Char)
  | undef
  | thrown

/-- Indentation in effect at nesting depth `d` for a two-space gap. -/
def indentChars (d : Nat) : List Char := List.replicate (2 * d) ' '

/-- Concatenation of the pieces with `sep` between neighbours. -/
def joinSep (sep : List Char) : List (List Char) → List Char
  | [] => []
  | [s] => s
  | s :: rest => s ++ sep ++ joinSep sep rest

/-- JSON escape of one character, as produced by JSON.stringify: the two
character escapes for quote, backslash, backspace, tab, newline, form feed
and carriage return, a 4-hex-digit escape for the remaining control
characters, and the character itself otherwise. -/
def escapeChar (c : Char) : List Char :=
  if c = '"' then ['\\', '"']
  else if c = '\\' then ['\\', '\\']
  else if c = Char.ofNat 8 then ['\\', 'b']
  else if c = Char.ofNat 9 then ['\\', 't']
  else if c = '\n' then ['\\', 'n']
  else if c = Char.ofNat 12 then ['\\', 'f']
  else if c = '\r' then ['\\', 'r']
  else if c.toNat < 32 then ['\\', 'u', '0', '0', hexChar (c.toNat / 16), hexChar c.toNat]
  else [c]

def escapeList : List Char → List Char
  | [] => []
  | c :: rest => escapeChar c ++ escapeList rest

/-- QuoteJSONString: the escaped characters between double quotes. -/
def quoteString (s : List Char) : List Char := '"' :: (escapeList s ++ ['"'])

mutual

/-- Embedding of ECMA-262 SerializeJSONProperty as invoked by
JSON.stringify(value, null, 2): gap is two spaces, `d` is the current
nesting depth, arrays substitute "null" for members that serialize to
undefined, objects skip such members, and a BigInt anywhere throws. -/
def serializeJSONProperty : JsValue → Nat → SerResult
  | .undef, _ => .undef
  | .func, _ => .undef
  | .sym, _ => .undef
  | .bigint _, _ => .thrown
  | .null, _ => .ok ['n', 'u', 'l', 'l']
  | .bool true, _ => .ok ['t', 'r', 'u', 'e']
  | .bool false, _ => .ok ['f', 'a', 'l', 's', 'e']
  | .num n, _ => .ok (intChars n)
  | .str s, _ => .ok (quoteString s)
  | .arr xs, d =>
    match serializeElements xs (d + 1) with
    | none => .thrown
    | some [] => .ok ['[', ']']
    | some es => .ok ('[' :: '\n' ::
        (indentChars (d + 1) ++ joinSep (',' :: '\n' :: indentChars (d + 1)) es ++
         '\n' :: (indentChars d ++ [']'])))
  | .obj fs, d =>
    match serializeMembers fs (d + 1) with
    | none => .thrown
    | some [] => .ok [lcurly, rcurly]
    | some ms => .ok (lcurly :: '\n' ::
        (indentChars (d + 1) ++ joinSep (',' :: '\n' :: indentChars (d + 1)) ms ++
         '\n' :: (indentChars d ++ [rcurly])))
termination_by j _ => sizeOf j

/-- Serialized texts of the elements of an array, depth `d` for each element;
`none` models a thrown TypeError from some element. -/
def serializeElements : List JsValue → Nat → Option (List (List Char))
  | [], _ => some []
  | x :: xs, d =>
    match serializeJSONProperty x d, serializeElements xs d with
    | .thrown, _ => none
    | _, none => none
    | .ok s, some es => some (s :: es)
    | .undef, some es => some (['n', 'u', 'l', 'l'] :: es)
termination_by xs _ => sizeOf xs

/-- Serialized member texts of an object (quoted key, colon, space, value),
skipping members whose value serializes to undefined. -/
def serializeMembers : List (List Char × JsValue) → Nat → Option (List (List Char))
  | [], _ => some []
  | (k, v) :: fs, d =>
    match serializeJSONProperty v d, serializeMembers fs d with
    | .thrown, _ => none
    | _, none => none
    | .ok s, some ms => some ((quoteString k ++ ':' :: ' ' :: s) :: ms)
    | .undef, some ms => some ms
termination_by fs _ => sizeOf fs

end

/-- Model of the standard-library primitive call JSON.stringify(x, null, 2). -/
def JSONstringifyPretty2 (value : JsValue) : SerResult :=
  serializeJSONProperty value 0

/-- Embedding of formatState from src/js/src/utils/index.ts:
return JSON.stringify(state, null, 2). -/
def formatState (state : JsValue) : SerResult :=
  JSONstringifyPretty2 state

/-! Predicates on values: which values are JSON-representable (the image of
actual JSON texts: no undefined, function, symbol or BigInt anywhere, and
object keys distinct as they are on a real JavaScript object), and which
values contain a BigInt (the throwing inputs of JSON.stringify). -/

def keysDistinct : List (List Char × JsValue) → Bool
  | [] => true
  | (k, _) :: fs => !(fs.any (fun f => f.1 == k)) && keysDistinct fs

mutual

def jsonable : JsValue → Bool
  | .undef => false
  | .func => false
  | .sym => false
  | .bigint _ => false
  | .null => true
  | .bool _ => true
  | .num _ => true
  | .str _ => true
  | .arr xs => jsonableList xs
  | .obj fs => jsonableFields fs && keysDistinct fs
termination_by j => sizeOf j

def jsonableList : List JsValue → Bool
  | [] => true
  | x :: xs => jsonable x && jsonableList xs
termination_by xs => sizeOf xs

def jsonableFields : List (List Char × JsValue) → Bool
  | [] => true
  | (_, v) :: fs => jsonable v && jsonableFields fs
termination_by fs => sizeOf fs

end

mutual

def hasBigint : JsValue → Bool
  | .bigint _ => true
  | .arr xs => hasBigintList xs
  | .obj fs => hasBigintFields fs
  | _ => false
termination_by j => sizeOf j

def hasBigintList : List JsValue → Bool
  | [] => false
  | x :: xs => hasBigint x || hasBigintList xs
termination_by xs => sizeOf xs

def hasBigintFields : List (List Char × JsValue) → Bool
  | [] => false
  | (_, v) :: fs => hasBigint v || hasBigintFields fs
termination_by fs => sizeOf fs

end

/-! The JSON parser model: standard recursive-descent JSON parsing over the
character list, total via a fuel argument that every recursive call
decrements. The number grammar is the integer one (values carry Int; the
fraction and exponent forms of full JSON denote non-integral doubles, which
are outside the value model), and a string escape must denote a Unicode
scalar value, possibly via a surrogate pair. -/

def skipWs : List Char → List Char
  | c :: rest => if isWsChar c then skipWs rest else c :: rest
  | [] => []

/-- Decoded character of a single-character escape sequence. -/
def escDecode (c : Char) : Option Char :=
  if c = '"' then some '"'
  else if c = '\\' then some '\\'
  else if c = '/' then some '/'
  else if c = 'b' then some (Char.ofNat 8)
  else if c = 'f' then some (Char.ofNat 12)
  else if c = 'n' then some '\n'
  else if c = 'r' then some '\r'
  else if c = 't' then some (Char.ofNat 9)
  else none

/-- Numeric value of one hexadecimal digit character. -/
def hexDigVal : Char → Option Nat
  | c =>
    if isDigitChar c then some (digitVal c)
    else if 'a' ≤ c && c ≤ 'f' then some (c.toNat - 87)
    else if 'A' ≤ c && c ≤ 'F' then some (c.toNat - 55)
    else none

def hex4Val (a b c d : Char) : Option Nat :=
  match hexDigVal a, hexDigVal b, hexDigVal c, hexDigVal d with
  | some x, some y, some z, some w => some (((x * 16 + y) * 16 + z) * 16 + w)
  | _, _, _, _ => none

/-- Decoded escape sequence after a backslash: the decoded character and the
input following the sequence. A u-escape must denote a Unicode scalar value,
possibly as a surrogate pair. -/
def unescapeSeq : List Char → Option (Char × List Char)
  | [] => none
  | e :: rest =>
    if e = 'u' then
      match rest with
      | a :: b :: c :: d :: rest2 =>
        (match hex4Val a b c d with
         | none => none
         | some n =>
           if n < 55296 ∨ (57344 ≤ n ∧ n < 1114112) then some (Char.ofNat n, rest2)
           else if n < 56320 then
             match rest2 with
             | '\\' :: 'u' :: a2 :: b2 :: c2 :: d2 :: rest3 =>
               (match hex4Val a2 b2 c2 d2 with
                | none => none
                | some m =>
                  if 56320 ≤ m ∧ m < 57344 then
                    some (Char.ofNat (65536 + (n - 55296) * 1024 + (m - 56320)), rest3)
                  else none)
             | _ => none
           else none)
      | _ => none
    else
      match escDecode e with
      | none => none
      | some ch => some (ch, rest)

/-- Characters of a string literal after its opening quote, together with
the input following the closing quote; fuel-driven recursion (each step
consumes at least one character, so the wrapper supplies enough fuel).
Control characters must be escaped. -/
def parseStringBodyF : Nat → List Char → Option (List Char × List Char)
  | 0, _ => none
  | _, [] => none
  | f + 1, c :: rest =>
    if c = '"' then some ([], rest)
    else if c = '\\' then
      match unescapeSeq rest with
      | none => none
      | some er => (parseStringBodyF f er.2).map (fun r => (er.1 :: r.1, r.2))
    else if c.toNat < 32 then none
    else (parseStringBodyF f rest).map (fun r => (c :: r.1, r.2))

def parseStringBody (l : List Char) : Option (List Char × List Char) :=
  parseStringBodyF (l.length + 1) l

/-- Accumulating decimal reader: consumes the leading digit run. -/
def digitsAcc (acc : Nat) : List Char → Nat × List Char
  | c :: rest => if isDigitChar c then digitsAcc (acc * 10 + digitVal c) rest else (acc, c :: rest)
  | [] => (acc, [])

/-- Integer-form JSON number: optional minus sign, then at least one digit
(leading zeros are tolerated here though strict JSON rejects them; the
serializer never emits them). -/
def parseIntNum : List Char → Option (Int × List Char)
  | [] => none
  | c :: rest =>
    if c = '-' then
      match rest with
      | [] => none
      | c2 :: rest2 =>
        if isDigitChar c2 then
          some (let p := digitsAcc (digitVal c2) rest2; (-(p.1 : Int), p.2))
        else none
    else if isDigitChar c then
      some (let p := digitsAcc (digitVal c) rest; ((p.1 : Int), p.2))
    else none

/-- Assignment of one parsed member onto an object under construction:
an existing key keeps its position and takes the new value, a new key is
appended — JavaScript property-creation order, so JSON.parse keeps the last
of duplicate keys. -/
def setField : List (List Char × JsValue) → List Char → JsValue → List (List Char × JsValue)
  | [], k, v => [(k, v)]
  | (k', v') :: fs, k, v =>
    if k = k' then (k, v) :: fs else (k', v') :: setField fs k v

def buildJSObject (pairs : List (List Char × JsValue)) : List (List Char × JsValue) :=
  pairs.foldl (fun acc kv => setField acc kv.1 kv.2) []

mutual

/-- Recursive-descent parse of one JSON value, leading whitespace allowed,
returning the value and the unconsumed input. -/
def parseVal : Nat → List Char → Option (JsValue × List Char)
  | 0, _ => none
  | f + 1, s =>
    match skipWs s with
    | [] => none
    | c :: rest =>
      if c = 'n' then
        match rest with
        | 'u' :: 'l' :: 'l' :: r => some (.null, r)
        | _ => none
      else if c = 't' then
        match rest with
        | 'r' :: 'u' :: 'e' :: r => some (.bool true, r)
        | _ => none
      else if c = 'f' then
        match rest with
        | 'a' :: 'l' :: 's' :: 'e' :: r => some (.bool false, r)
        | _ => none
      else if c = '"' then (parseStringBody rest).map (fun r => (.str r.1, r.2))
      else if c = '[' then
        match skipWs rest with
        | [] => none
        | c2 :: rest2 =>
          if c2 = ']' then some (.arr [], rest2)
          else (parseElems f rest).map (fun r => (.arr r.1, r.2))
      else if c = lcurly then
        match skipWs rest with
        | [] => none
        | c2 :: rest2 =>
          if c2 = rcurly then some (.obj [], rest2)
          else (parseMembers f rest).map (fun r => (.obj (buildJSObject r.1), r.2))
      else (parseIntNum (c :: rest)).map (fun r => (.num r.1, r.2))

/-- Comma-separated values up to the closing square bracket (at least one;
the empty array is handled in parseVal). -/
def parseElems : Nat → List Char → Option (List JsValue × List Char)
  | 0, _ => none
  | f + 1, s =>
    (parseVal f s).bind (fun vr =>
      match skipWs vr.2 with
      | [] => none
      | c :: rest =>
        if c = ',' then (parseElems f rest).map (fun r => (vr.1 :: r.1, r.2))
        else if c = ']' then some ([vr.1], rest)
        else none)

/-- Comma-separated key-colon-value members up to the closing curly bracket
(at least one; the empty object is handled in parseVal). -/
def parseMembers : Nat → List Char → Option (List (List Char × JsValue) × List Char)
  | 0, _ => none
  | f + 1, s =>
    match skipWs s with
    | [] => none
    | c :: rest =>
      if c = '"' then
        (parseStringBody rest).bind (fun kr =>
          match skipWs kr.2 with
          | [] => none
          | c2 :: rest2 =>
            if c2 = ':' then
              (parseVal f rest2).bind (fun vr =>
                match skipWs vr.2 with
                | [] => none
                | c3 :: rest3 =>
                  if c3 = ',' then
                    (parseMembers f rest3).map (fun r => ((kr.1, vr.1) :: r.1, r.2))
                  else if c3 = rcurly then some ([(kr.1, vr.1)], rest3)
                  else none)
            else none)
      else none

end

/-- Model of standard JSON parsing (JSON.parse) of a complete text: one value
with only whitespace around it. -/
def jsonParse (s : List Char) : Option JsValue :=
  match parseVal (s.length + 1) s with
  | some (v, rest) => if skipWs rest = [] then some v else none
  | none => none

/-! Results of formatState, classified. -/

/-- Test whether JSON.stringify produced an actual string. -/
def SerResult.isString : SerResult → Bool
  | .ok _ => true
  | _ => false

/-- Values on which JSON.stringify returns undefined at the top level:
the undefined value, functions and symbols. -/
def nonSerializableTop : JsValue → Bool
  | .undef => true
  | .func => true
  | .sym => true
  | _ => false

/-! Model of the host Date object and its ISO formatting, as used by
logWithTimestamp via new Date().toISOString(). The host converts the
epoch milliseconds into calendar components; the model takes the
components directly, with the invariant every real Date satisfies. -/

structure JsDate where
  year : Nat
  month : Nat
  day : Nat
  hour : Nat
  minute : Nat
  second : Nat
  ms : Nat

/-- Invariant of the components of a real Date value (new Date() always
satisfies it; years through 9999 use the basic 24-character ISO format). -/
def JsDate.valid (t : JsDate) : Prop :=
  t.year ≤ 9999 ∧ 1 ≤ t.month ∧ t.month ≤ 12 ∧ 1 ≤ t.day ∧ t.day ≤ 31 ∧
    t.hour ≤ 23 ∧ t.minute ≤ 59 ∧ t.second ≤ 59 ∧ t.ms ≤ 999

/-- Two-digit zero-padded decimal field (positional digits; exact for
values through 99). -/
def pad2 (n : Nat) : List Char := [decChar (n / 10), decChar n]

def pad3 (n : Nat) : List Char := [decChar (n / 100), decChar (n / 10), decChar n]

def pad4 (n : Nat) : List Char :=
  [decChar (n / 1000), decChar (n / 100), decChar (n / 10), decChar n]

/-- Model of Date.prototype.toISOString: the 24-character UTC form
YYYY-MM-DDTHH:MM:SS.sssZ built from the date components. -/
def toISOString (t : JsDate) : List Char :=
  pad4 t.year ++ '-' :: (pad2 t.month ++ '-' :: (pad2 t.day ++ 'T' :: (pad2 t.hour ++
    ':' :: (pad2 t.minute ++ ':' :: (pad2 t.second ++ '.' :: (pad3 t.ms ++ ['Z']))))))

/-- Recognizer of a valid 24-character ISO-8601 UTC timestamp (extended
format with in-range calendar fields). -/
def isValidISO8601 : List Char → Bool
  | [y1, y2, y3, y4, a1, mo1, mo2, a2, d1, d2, tt, h1, h2, b1, mi1, mi2, b2,
     s1, s2, dot, f1, f2, f3, zz] =>
    isDigitChar y1 && isDigitChar y2 && isDigitChar y3 && isDigitChar y4 &&
    a1 == '-' && a2 == '-' && tt == 'T' && b1 == ':' && b2 == ':' &&
    dot == '.' && zz == 'Z' &&
    isDigitChar mo1 && isDigitChar mo2 && isDigitChar d1 && isDigitChar d2 &&
    isDigitChar h1 && isDigitChar h2 && isDigitChar mi1 && isDigitChar mi2 &&
    isDigitChar s1 && isDigitChar s2 && isDigitChar f1 && isDigitChar f2 && isDigitChar f3 &&
    decide (1 ≤ 10 * digitVal mo1 + digitVal mo2) &&
    decide (10 * digitVal mo1 + digitVal mo2 ≤ 12) &&
    decide (1 ≤ 10 * digitVal d1 + digitVal d2) &&
    decide (10 * digitVal d1 + digitVal d2 ≤ 31) &&
    decide (10 * digitVal h1 + digitVal h2 ≤ 23) &&
    decide (10 * digitVal mi1 + digitVal mi2 ≤ 59) &&
    decide (10 * digitVal s1 + digitVal s2 ≤ 59)
  | _ => false

/-! Truthiness and the logging helper. -/

/-- JavaScript truthiness: undefined, null, false, zero, the empty string
and zero BigInt are falsy; every other value is truthy. -/
def truthy : JsValue → Bool
  | .undef => false
  | .null => false
  | .bool b => b
  | .num n => !(n == 0)
  | .str s => !(s == [])
  | .bigint n => !(n == 0)
  | .func => true
  | .sym => true
  | .arr _ => true
  | .obj _ => true

/-- Truthiness of the optional second argument; an omitted argument is
undefined, hence falsy. -/
def dataTruthy : Option JsValue → Bool
  | none => false
  | some v => truthy v

/-- Embedding of logWithTimestamp from src/js/src/utils/index.ts. The
ambient date (read by new Date()) is passed explicitly. The result lists
the console.log calls made: the formatted template string together with
the attached data argument, if any. The template is the bracketed
timestamp, a space and the message, with a trailing colon when data is
attached. -/
def logWithTimestamp (now : JsDate) (message : List Char) (data : Option JsValue) :
    List (List Char × Option JsValue) :=
  let timestamp := toISOString now
  if dataTruthy data then
    [('[' :: (timestamp ++ ']' :: ' ' :: (message ++ [':'])), data)]
  else
    [('[' :: (timestamp ++ ']' :: ' ' :: message), none)]

/-! Model of generateId: Math.random().toString(36).substr(2, 9). A
Math.random outcome is a dyadic rational k / 2^53 in [0, 1); the model
takes the 53-bit numerator as the outcome of the source. -/

def randFrac (seed : Nat) : Nat := seed % 2 ^ 53

/-- Base-36 fractional digits of k / 2^53; the expansion of a 53-bit
dyadic rational is exact within 27 base-36 digits since 2^53 divides 36^27. -/
def frac36digits (k : Nat) : List Nat :=
  (List.range 27).map (fun i => k * 36 ^ (i + 1) / 2 ^ 53 % 36)

/-- Lower-case base-36 digit character of n % 36. -/
def base36Digit (n : Nat) : Char :=
  match n % 36 with
  | 0 => '0' | 1 => '1' | 2 => '2' | 3 => '3' | 4 => '4' | 5 => '5'
  | 6 => '6' | 7 => '7' | 8 => '8' | 9 => '9'
  | 10 => 'a' | 11 => 'b' | 12 => 'c' | 13 => 'd' | 14 => 'e' | 15 => 'f'
  | 16 => 'g' | 17 => 'h' | 18 => 'i' | 19 => 'j' | 20 => 'k' | 21 => 'l'
  | 22 => 'm' | 23 => 'n' | 24 => 'o' | 25 => 'p' | 26 => 'q' | 27 => 'r'
  | 28 => 's' | 29 => 't' | 30 => 'u' | 31 => 'v' | 32 => 'w' | 33 => 'x'
  | 34 => 'y' | _ => 'z'

def stripZeros (l : List Nat) : List Nat :=
  (l.reverse.dropWhile (fun d => d == 0)).reverse

/-- Number.prototype.toString(36) on a value k / 2^53 in [0, 1): the single
digit 0 when zero, otherwise 0 and a point followed by the base-36
fraction digits without trailing zeros (the host prints a shortest
uniquely-identifying form; the exact terminating expansion is the model). -/
def numToString36 (k : Nat) : List Char :=
  if k = 0 then ['0']
  else '0' :: '.' :: (stripZeros (frac36digits k)).map base36Digit

/-- String.prototype.substr(start, len): len characters from index start. -/
def substrJS (s : List Char) (start len : Nat) : List Char := (s.drop start).take len

/-- Embedding of generateId from src/js/src/utils/index.ts:
Math.random().toString(36).substr(2, 9), the random outcome supplied
through its 53-bit numerator. -/
def generateId (seed : Nat) : List Char :=
  substrJS (numToString36 (randFrac seed)) 2 9

/-- The character set generateId draws from: the ten decimal digit
characters followed by the twenty-six lower-case letters. -/
def base36Alphabet : List Char :=
  (List.range 10).map (fun i => Char.ofNat (48 + i)) ++
    (List.range 26).map (fun i => Char.ofNat (97 + i))

/-! Model of the host timer queue and event loop, for sleep. -/

/-- State of the host timers: current clock (milliseconds), pending
timers as pairs of callback id and due time, and the ids whose callbacks
have run. For sleep the callback is the promise's resolve, so a fired id
means the promise has resolved. -/
structure TimerState where
  clock : Nat
  timers : List (Nat × Nat)
  fired : List Nat

/-- Modelled from the spec: the host setTimeout primitive registers a
callback to run no earlier than the given delay after now. -/
def setTimeout (st : TimerState) (id : Nat) (delayMs : Nat) : TimerState :=
  ⟨st.clock, st.timers ++ [(id, st.clock + delayMs)], st.fired⟩

/-- Embedding of sleep from src/js/src/utils/index.ts: new Promise whose
resolve is handed to setTimeout with delay ms; id names that resolve
callback. -/
def sleep (st : TimerState) (id : Nat) (ms : Nat) : TimerState :=
  setTimeout st id ms

/-- Event-loop transitions: the clock advances, or a pending timer whose
due time has been reached fires, running its callback. -/
inductive TimerStep : TimerState → TimerState → Prop where
  | tick (st : TimerState) : TimerStep st ⟨st.clock + 1, st.timers, st.fired⟩
  | fire (st : TimerState) (id due : Nat) :
      (id, due) ∈ st.timers → due ≤ st.clock →
      TimerStep st ⟨st.clock, st.timers.erase (id, due), id :: st.fired⟩

/-- Reflexive-transitive closure of the event-loop transitions. -/
inductive TimerReaches : TimerState → TimerState → Prop where
  | refl (st : TimerState) : TimerReaches st st
  | step {a b c : TimerState} : TimerStep a b → TimerReaches b c → TimerReaches a c

/-- Freshness of a callback id: not pending and never fired. -/
def freshId (st : TimerState) (id : Nat) : Prop :=
  (∀ p ∈ st.timers, p.1 ≠ id) ∧ id ∉ st.fired

/-! Ambient context of a helper call, for statelessness: the console log
so far, the stream of pending random outcomes, and the current date. The
utilities own no module-level state, so each call is a function of its
arguments and this ambient context alone. -/

structure CallCtx where
  console : List (List Char × Option JsValue)
  randSeeds : List Nat
  now : JsDate

/-- Call of formatState in a context: reads nothing from the context and
leaves it unchanged. -/
def callFormatState (w : CallCtx) (x : JsValue) : SerResult × CallCtx :=
  (formatState x, w)

/-- Call of generateId in a context: consumes the next random outcome. -/
def callGenerateId (w : CallCtx) : List Char × CallCtx :=
  (generateId (w.randSeeds.headD 0), ⟨w.console, w.randSeeds.tail, w.now⟩)

/-- Call of logWithTimestamp in a context: appends its one console entry. -/
def callLogWithTimestamp (w : CallCtx) (message : List Char) (data : Option JsValue) :
    CallCtx :=
  ⟨w.console ++ logWithTimestamp w.now message data, w.randSeeds, w.now⟩

/-- Call of sleep in a context: the promise and timer live in the host
event loop; no ambient call state is touched. -/
def callSleep (w : CallCtx) (ms : Nat) : CallCtx := w

/-! Digit lemmas and the integer round-trip. -/

theorem decChar_spec (n : Nat) :
    isDigitChar (decChar n) = true ∧ digitVal (decChar n) = n % 10 := by
  have h : n % 10 < 10 := Nat.mod_lt _ (by omega)
  unfold decChar
  generalize hg : n % 10 = m at *
  interval_cases m <;> exact ⟨by decide, by decide⟩

theorem natChars_unfold (n : Nat) :
    natChars n = (if n < 10 then [] else natChars (n / 10)) ++ [decChar n] := by
  rw [natChars]
  by_cases h : n < 10 <;> simp [h]

theorem natChars_ne_nil (n : Nat) : natChars n ≠ [] := by
  rw [natChars_unfold]; simp

theorem natChars_all_digits (n : Nat) : ∀ c ∈ natChars n, isDigitChar c = true := by
  induction n using Nat.strongRecOn with
  | _ n ih =>
    rw [natChars_unfold]
    intro c hc
    rcases List.mem_append.mp hc with h | h
    · rcases Nat.lt_or_ge n 10 with h10 | h10
      · rw [if_pos h10] at h
        cases h
      · rw [if_neg (Nat.not_lt.mpr h10)] at h
        exact ih (n / 10) (by omega) c h
    · rw [List.mem_singleton] at h
      subst h
      exact (decChar_spec n).1

theorem natChars_head (n : Nat) : ∃ c t, natChars n = c :: t ∧ isDigitChar c = true := by
  cases hn : natChars n with
  | nil => exact absurd hn (natChars_ne_nil n)
  | cons c t => exact ⟨c, t, rfl, natChars_all_digits n c (hn ▸ List.mem_cons_self c t)⟩

theorem natChars_foldl (n : Nat) : ∀ acc : Nat,
    (natChars n).foldl (fun a c => a * 10 + digitVal c) acc
      = acc * 10 ^ (natChars n).length + n := by
  induction n using Nat.strongRecOn with
  | _ n ih =>
    intro acc
    rw [natChars_unfold]
    by_cases h : n < 10
    · simp [h, (decChar_spec n).2]
      try omega
    · simp only [if_neg h, List.foldl_append, List.length_append, List.length_cons,
        List.length_nil, List.foldl_cons, List.foldl_nil]
      rw [ih (n / 10) (by omega) acc, (decChar_spec n).2, pow_succ]
      have hd : n / 10 * 10 + n % 10 = n := by omega
      calc (acc * 10 ^ (natChars (n / 10)).length + n / 10) * 10 + n % 10
          = acc * (10 ^ (natChars (n / 10)).length * 10) + (n / 10 * 10 + n % 10) := by ring
        _ = acc * (10 ^ (natChars (n / 10)).length * 10) + n := by rw [hd]

/-- Head test meaning the following input cannot extend a decimal digit run. -/
def numSafe : List Char → Bool
  | [] => true
  | c :: _ => !(isDigitChar c)

theorem digitsAcc_run (ds : List Char) (hds : ∀ c ∈ ds, isDigitChar c = true) :
    ∀ (acc : Nat) (rest : List Char), numSafe rest = true →
      digitsAcc acc (ds ++ rest) = (ds.foldl (fun a c => a * 10 + digitVal c) acc, rest) := by
  induction ds with
  | nil =>
    intro acc rest h
    cases rest with
    | nil => rfl
    | cons c t =>
      simp only [numSafe, Bool.not_eq_true'] at h
      simp [digitsAcc, h]
  | cons c t ih =>
    intro acc rest h
    have hc := hds c (by simp)
    have hstep : digitsAcc acc ((c :: t) ++ rest)
        = digitsAcc (acc * 10 + digitVal c) (t ++ rest) := by
      simp only [List.cons_append, digitsAcc, hc, if_pos]
      rfl
    rw [hstep, List.foldl_cons]
    exact ih (fun x hx => hds x (by simp [hx])) _ rest h

theorem digit_ne_minus {c : Char} (h : isDigitChar c = true) : c ≠ '-' := by
  intro he
  subst he
  exact absurd h (by decide)

theorem parseIntNum_intChars (i : Int) (rest : List Char) (h : numSafe rest = true) :
    parseIntNum (intChars i ++ rest) = some (i, rest) := by
  by_cases hneg : i < 0
  · obtain ⟨c, t, hct, hc⟩ := natChars_head i.natAbs
    rw [intChars, if_pos hneg, hct]
    simp only [List.cons_append, parseIntNum, if_pos, hc, reduceIte]
    have hrun := digitsAcc_run t
      (fun x hx => natChars_all_digits i.natAbs x (hct ▸ List.mem_cons_of_mem c hx))
      (digitVal c) rest h
    rw [hrun]
    have hfold := natChars_foldl i.natAbs 0
    rw [hct] at hfold
    simp only [List.foldl_cons, Nat.zero_mul, Nat.zero_add] at hfold
    rw [hfold]
    have hv : -((i.natAbs : Nat) : Int) = i := by omega
    rw [hv]
  · obtain ⟨c, t, hct, hc⟩ := natChars_head i.natAbs
    rw [intChars, if_neg hneg, hct]
    simp only [List.cons_append, parseIntNum, digit_ne_minus hc, reduceIte, hc]
    have hrun := digitsAcc_run t
      (fun x hx => natChars_all_digits i.natAbs x (hct ▸ List.mem_cons_of_mem c hx))
      (digitVal c) rest h
    rw [hrun]
    have hfold := natChars_foldl i.natAbs 0
    rw [hct] at hfold
    simp only [List.foldl_cons, Nat.zero_mul, Nat.zero_add] at hfold
    rw [hfold]
    have hv : ((i.natAbs : Nat) : Int) = i := by omega
    rw [hv]

/-! String-literal escape round-trip. -/

theorem hexChar_spec (n : Nat) : hexDigVal (hexChar n) = some (n % 16) := by
  have h : n % 16 < 16 := Nat.mod_lt _ (by omega)
  unfold hexChar
  generalize hg : n % 16 = m at *
  interval_cases m <;> decide


/-! String-literal escape round-trip. -/

theorem parseStringBodyF_escapeList (s : List Char) : ∀ (f : Nat) (rest : List Char),
    (escapeList s).length < f →
    parseStringBodyF f (escapeList s ++ '"' :: rest) = some (s, rest) := by
  induction s with
  | nil =>
    intro f rest h
    cases f with
    | zero => omega
    | succ f => simp [escapeList, parseStringBodyF]
  | cons c s ih =>
    intro f rest h
    cases f with
    | zero => omega
    | succ f =>
      rw [show escapeList (c :: s) = escapeChar c ++ escapeList s from rfl] at h ⊢
      rw [List.append_assoc]
      by_cases h1 : c = '"'
      · subst h1
        simp only [escapeChar, reduceIte] at h ⊢
        have hs : (escapeList s).length < f := by simp at h; omega
        simp [parseStringBodyF, unescapeSeq, escDecode, ih f rest hs]
      · by_cases h2 : c = '\\'
        · subst h2
          simp only [escapeChar, reduceIte] at h ⊢
          have hs : (escapeList s).length < f := by simp at h; omega
          simp [parseStringBodyF, unescapeSeq, escDecode, ih f rest hs]
        · by_cases h3 : c = Char.ofNat 8
          · subst h3
            simp only [escapeChar, reduceIte] at h ⊢
            have hs : (escapeList s).length < f := by simp at h; omega
            simp [parseStringBodyF, unescapeSeq, escDecode, ih f rest hs]
          · by_cases h4 : c = Char.ofNat 9
            · subst h4
              simp only [escapeChar, reduceIte] at h ⊢
              have hs : (escapeList s).length < f := by simp at h; omega
              simp [parseStringBodyF, unescapeSeq, escDecode, ih f rest hs]
            · by_cases h5 : c = '\n'
              · subst h5
                simp only [escapeChar, reduceIte] at h ⊢
                have hs : (escapeList s).length < f := by simp at h; omega
                simp [parseStringBodyF, unescapeSeq, escDecode, ih f rest hs]
              · by_cases h6 : c = Char.ofNat 12
                · subst h6
                  simp only [escapeChar, reduceIte] at h ⊢
                  have hs : (escapeList s).length < f := by simp at h; omega
                  simp [parseStringBodyF, unescapeSeq, escDecode, ih f rest hs]
                · by_cases h7 : c = '\r'
                  · subst h7
                    simp only [escapeChar, reduceIte] at h ⊢
                    have hs : (escapeList s).length < f := by simp at h; omega
                    simp [parseStringBodyF, unescapeSeq, escDecode, ih f rest hs]
                  · by_cases h8 : c.toNat < 32
                    · have hesc : escapeChar c
                          = ['\\', 'u', '0', '0', hexChar (c.toNat / 16), hexChar c.toNat] := by
                        simp [escapeChar, h1, h2, h3, h4, h5, h6, h7, h8]
                      rw [hesc] at h ⊢
                      have hs : (escapeList s).length < f := by simp at h; omega
                      have hz : hexDigVal '0' = some 0 := by decide
                      have hx : hex4Val '0' '0' (hexChar (c.toNat / 16)) (hexChar c.toNat)
                          = some c.toNat := by
                        simp only [hex4Val, hz, hexChar_spec]
                        have : c.toNat / 16 % 16 = c.toNat / 16 := by omega
                        rw [this]
                        have : ((0 * 16 + 0) * 16 + c.toNat / 16) * 16 + c.toNat % 16
                            = c.toNat := by omega
                        rw [this]
                      have hlt : c.toNat < 55296 ∨ (57344 ≤ c.toNat ∧ c.toNat < 1114112) := by
                        left; omega
                      simp [parseStringBodyF, unescapeSeq, hx, hlt, Char.ofNat_toNat,
                        ih f rest hs]
                    · have hesc : escapeChar c = [c] := by
                        simp [escapeChar, h1, h2, h3, h4, h5, h6, h7, h8]
                      rw [hesc] at h ⊢
                      have hs : (escapeList s).length < f := by simp at h; omega
                      simp only [List.cons_append, List.nil_append, parseStringBodyF]
                      rw [if_neg h1, if_neg h2, if_neg h8]
                      simp [ih f rest hs]

theorem parseStringBody_escapeList (s rest : List Char) :
    parseStringBody (escapeList s ++ '"' :: rest) = some (s, rest) := by
  rw [parseStringBody]
  apply parseStringBodyF_escapeList
  simp
  omega

/-! Whitespace behaviour of the parser. -/

theorem skipWs_cons_not {c : Char} (t : List Char) (h : isWsChar c = false) :
    skipWs (c :: t) = c :: t := by
  simp [skipWs, h]

theorem skipWs_all_ws (ws : List Char) (h : ∀ c ∈ ws, isWsChar c = true) :
    ∀ t : List Char, skipWs (ws ++ t) = skipWs t := by
  induction ws with
  | nil => intro t; rfl
  | cons c w ih =>
    intro t
    rw [List.cons_append, skipWs, if_pos (h c (List.mem_cons_self c w))]
    exact ih (fun x hx => h x (List.mem_cons_of_mem c hx)) t

theorem indent_all_ws (d : Nat) : ∀ c ∈ indentChars d, isWsChar c = true := by
  intro c hc
  rw [indentChars, List.mem_replicate] at hc
  rw [hc.2]
  decide

theorem skipWs_indent (d : Nat) (t : List Char) :
    skipWs (indentChars d ++ t) = skipWs t :=
  skipWs_all_ws _ (indent_all_ws d) t

theorem skipWs_nl_indent (d : Nat) (t : List Char) :
    skipWs ('\n' :: (indentChars d ++ t)) = skipWs t := by
  rw [skipWs, if_pos (by decide)]
  exact skipWs_indent d t

theorem parseVal_ws (f : Nat) (ws t : List Char) (h : ∀ c ∈ ws, isWsChar c = true) :
    parseVal f (ws ++ t) = parseVal f t := by
  cases f with
  | zero => rfl
  | succ f => rw [parseVal, parseVal, skipWs_all_ws ws h t]

theorem parseElems_ws (f : Nat) (ws t : List Char) (h : ∀ c ∈ ws, isWsChar c = true) :
    parseElems f (ws ++ t) = parseElems f t := by
  cases f with
  | zero => rfl
  | succ f => rw [parseElems, parseElems, parseVal_ws f ws t h]

theorem parseMembers_ws (f : Nat) (ws t : List Char) (h : ∀ c ∈ ws, isWsChar c = true) :
    parseMembers f (ws ++ t) = parseMembers f t := by
  cases f with
  | zero => rfl
  | succ f => rw [parseMembers, parseMembers, skipWs_all_ws ws h t]

/-! Character classifications used to steer the parser dispatch. -/

theorem digit_facts {c : Char} (h : isDigitChar c = true) :
    c ≠ 'n' ∧ c ≠ 't' ∧ c ≠ 'f' ∧ c ≠ '"' ∧ c ≠ '[' ∧ c ≠ lcurly ∧
      isWsChar c = false ∧ c ≠ ']' ∧ c ≠ rcurly ∧ c ≠ ',' := by
  refine ⟨?_, ?_, ?_, ?_, ?_, ?_, ?_, ?_, ?_, ?_⟩
  · intro he; subst he; exact absurd h (by decide)
  · intro he; subst he; exact absurd h (by decide)
  · intro he; subst he; exact absurd h (by decide)
  · intro he; subst he; exact absurd h (by decide)
  · intro he; subst he; exact absurd h (by decide)
  · intro he; subst he; exact absurd h (by decide)
  · have hb : 48 ≤ c.toNat := by
      rw [isDigitChar, Bool.and_eq_true] at h
      exact of_decide_eq_true h.1
    have h1 : c ≠ ' ' := by
      intro he
      subst he
      simp at hb
    have h2 : c.toNat ≠ 9 := by omega
    have h3 : c.toNat ≠ 10 := by omega
    have h4 : c.toNat ≠ 13 := by omega
    rw [isWsChar]
    simp [h1, h2, h3, h4]
  · intro he; subst he; exact absurd h (by decide)
  · intro he; subst he; exact absurd h (by decide)
  · intro he; subst he; exact absurd h (by decide)

/-! Structural induction principle for the nested value type. -/

theorem JsValue.inductionOn {P : JsValue → Prop}
    (hundef : P .undef) (hnull : P .null) (hbool : ∀ b, P (.bool b))
    (hnum : ∀ n, P (.num n)) (hstr : ∀ s, P (.str s)) (hbig : ∀ n, P (.bigint n))
    (hfunc : P .func) (hsym : P .sym)
    (harr : ∀ xs, (∀ x ∈ xs, P x) → P (.arr xs))
    (hobj : ∀ fs, (∀ kv ∈ fs, P kv.2) → P (.obj fs)) : ∀ x, P x := by
  have key : ∀ (n : Nat) (x : JsValue), sizeOf x ≤ n → P x := by
    intro n
    induction n with
    | zero =>
      intro x hx
      cases x <;> simp_arith at hx
    | succ n ih =>
      intro x hx
      cases x with
      | undef => exact hundef
      | null => exact hnull
      | bool b => exact hbool b
      | num m => exact hnum m
      | str s => exact hstr s
      | bigint m => exact hbig m
      | func => exact hfunc
      | sym => exact hsym
      | arr xs =>
        apply harr
        intro y hy
        apply ih
        have h1 := List.sizeOf_lt_of_mem hy
        have h2 : sizeOf (JsValue.arr xs) = 1 + sizeOf xs := by simp
        omega
      | obj fs =>
        apply hobj
        intro kv hkv
        apply ih
        have h1 := List.sizeOf_lt_of_mem hkv
        have h2 : sizeOf (JsValue.obj fs) = 1 + sizeOf fs := by simp
        have h3 : sizeOf kv = 1 + sizeOf kv.1 + sizeOf kv.2 := by
          cases kv; simp
        omega
  intro x
  exact key (sizeOf x) x le_rfl

/-! Serialization success on JSON-representable values. -/

theorem jsonableList_mem {xs : List JsValue} (h : jsonableList xs = true) :
    ∀ x ∈ xs, jsonable x = true := by
  induction xs with
  | nil => intro x hx; cases hx
  | cons y ys ih =>
    rw [jsonableList, Bool.and_eq_true] at h
    intro x hx
    rcases List.mem_cons.mp hx with he | hm
    · rw [he]; exact h.1
    · exact ih h.2 x hm

theorem jsonableFields_mem {fs : List (List Char × JsValue)} (h : jsonableFields fs = true) :
    ∀ kv ∈ fs, jsonable kv.2 = true := by
  induction fs with
  | nil => intro kv hkv; cases hkv
  | cons g gs ih =>
    intro kv hkv
    obtain ⟨k, v⟩ := g
    rw [jsonableFields, Bool.and_eq_true] at h
    rcases List.mem_cons.mp hkv with he | hm
    · rw [he]; exact h.1
    · exact ih h.2 kv hm

theorem serializeElements_some (ys : List JsValue)
    (hIH : ∀ y ∈ ys, jsonable y = true → ∀ d : Nat, ∃ s, serializeJSONProperty y d = .ok s)
    (hj : ∀ y ∈ ys, jsonable y = true) :
    ∀ d : Nat, ∃ es, serializeElements ys d = some es := by
  induction ys with
  | nil => intro d; exact ⟨[], by simp [serializeElements]⟩
  | cons y ys ih =>
    intro d
    obtain ⟨s, hs⟩ := hIH y (List.mem_cons_self y ys) (hj y (List.mem_cons_self y ys)) d
    obtain ⟨es, hes⟩ :=
      ih (fun z hz => hIH z (List.mem_cons_of_mem y hz))
        (fun z hz => hj z (List.mem_cons_of_mem y hz)) d
    exact ⟨s :: es, by simp [serializeElements, hs, hes]⟩

theorem serializeMembers_some (gs : List (List Char × JsValue))
    (hIH : ∀ g ∈ gs, jsonable g.2 = true → ∀ d : Nat, ∃ s, serializeJSONProperty g.2 d = .ok s)
    (hj : ∀ g ∈ gs, jsonable g.2 = true) :
    ∀ d : Nat, ∃ ms, serializeMembers gs d = some ms := by
  induction gs with
  | nil => intro d; exact ⟨[], by simp [serializeMembers]⟩
  | cons g gs ih =>
    intro d
    obtain ⟨k, v⟩ := g
    obtain ⟨s, hs⟩ := hIH (k, v) (List.mem_cons_self _ gs) (hj (k, v) (List.mem_cons_self _ gs)) d
    obtain ⟨ms, hms⟩ :=
      ih (fun z hz => hIH z (List.mem_cons_of_mem _ hz))
        (fun z hz => hj z (List.mem_cons_of_mem _ hz)) d
    exact ⟨(quoteString k ++ ':' :: ' ' :: s) :: ms, by simp [serializeMembers, hs, hms]⟩

theorem serialize_ok_of_jsonable (x : JsValue) :
    jsonable x = true → ∀ d : Nat, ∃ s, serializeJSONProperty x d = .ok s := by
  induction x using JsValue.inductionOn with
  | hundef => intro h; exact absurd h (by simp [jsonable])
  | hnull => intro _ d; exact ⟨['n', 'u', 'l', 'l'], by simp [serializeJSONProperty]⟩
  | hbool b =>
    intro _ d
    cases b with
    | true => exact ⟨['t', 'r', 'u', 'e'], by simp [serializeJSONProperty]⟩
    | false => exact ⟨['f', 'a', 'l', 's', 'e'], by simp [serializeJSONProperty]⟩
  | hnum n => intro _ d; exact ⟨intChars n, by simp [serializeJSONProperty]⟩
  | hstr s => intro _ d; exact ⟨quoteString s, by simp [serializeJSONProperty]⟩
  | hbig n => intro h; exact absurd h (by simp [jsonable])
  | hfunc => intro h; exact absurd h (by simp [jsonable])
  | hsym => intro h; exact absurd h (by simp [jsonable])
  | harr xs hp =>
    intro h d
    rw [jsonable] at h
    obtain ⟨es, hes⟩ := serializeElements_some xs hp (jsonableList_mem h) (d + 1)
    cases es with
    | nil => exact ⟨['[', ']'], by simp [serializeJSONProperty, hes]⟩
    | cons e es =>
      exact ⟨'[' :: '\n' ::
        (indentChars (d + 1) ++ joinSep (',' :: '\n' :: indentChars (d + 1)) (e :: es) ++
         '\n' :: (indentChars d ++ [']'])), by simp [serializeJSONProperty, hes]⟩
  | hobj fs hp =>
    intro h d
    rw [jsonable, Bool.and_eq_true] at h
    obtain ⟨ms, hms⟩ := serializeMembers_some fs hp (jsonableFields_mem h.1) (d + 1)
    cases ms with
    | nil => exact ⟨[lcurly, rcurly], by simp [serializeJSONProperty, hms]⟩
    | cons m ms =>
      exact ⟨lcurly :: '\n' ::
        (indentChars (d + 1) ++ joinSep (',' :: '\n' :: indentChars (d + 1)) (m :: ms) ++
         '\n' :: (indentChars d ++ [rcurly])), by simp [serializeJSONProperty, hms]⟩

/-! Head character of a serialized value. -/

theorem serialize_ok_head (x : JsValue) (d : Nat) (s : List Char)
    (hs : serializeJSONProperty x d = .ok s) :
    ∃ c t, s = c :: t ∧ isWsChar c = false ∧ c ≠ ']' := by
  cases x with
  | undef => simp [serializeJSONProperty] at hs
  | func => simp [serializeJSONProperty] at hs
  | sym => simp [serializeJSONProperty] at hs
  | bigint n => simp [serializeJSONProperty] at hs
  | null =>
    simp [serializeJSONProperty] at hs
    exact ⟨'n', _, hs.symm, by decide, by decide⟩
  | bool b =>
    cases b with
    | true =>
      simp [serializeJSONProperty] at hs
      exact ⟨'t', _, hs.symm, by decide, by decide⟩
    | false =>
      simp [serializeJSONProperty] at hs
      exact ⟨'f', _, hs.symm, by decide, by decide⟩
  | num n =>
    simp [serializeJSONProperty] at hs
    by_cases hneg : n < 0
    · rw [intChars, if_pos hneg] at hs
      exact ⟨'-', _, hs.symm, by decide, by decide⟩
    · rw [intChars, if_neg hneg] at hs
      obtain ⟨c, t, hct, hc⟩ := natChars_head n.natAbs
      obtain ⟨_, _, _, _, _, _, hws, hrb, _, _⟩ := digit_facts hc
      exact ⟨c, t, by rw [← hs, hct], hws, hrb⟩
  | str s' =>
    simp [serializeJSONProperty, quoteString] at hs
    exact ⟨'"', _, hs.symm, by decide, by decide⟩
  | arr xs =>
    cases hse : serializeElements xs (d + 1) with
    | none => simp [serializeJSONProperty, hse] at hs
    | some es =>
      cases es with
      | nil =>
        simp [serializeJSONProperty, hse] at hs
        exact ⟨'[', _, hs.symm, by decide, by decide⟩
      | cons e es =>
        simp [serializeJSONProperty, hse] at hs
        exact ⟨'[', _, hs.symm, by decide, by decide⟩
  | obj fs =>
    cases hsm : serializeMembers fs (d + 1) with
    | none => simp [serializeJSONProperty, hsm] at hs
    | some ms =>
      cases ms with
      | nil =>
        simp [serializeJSONProperty, hsm] at hs
        exact ⟨lcurly, _, hs.symm, by decide, by decide⟩
      | cons m ms =>
        simp [serializeJSONProperty, hsm] at hs
        exact ⟨lcurly, _, hs.symm, by decide, by decide⟩

/-! Rebuilding an object from parsed members. -/

theorem setField_fresh (acc : List (List Char × JsValue)) (k : List Char) (v : JsValue)
    (h : ∀ g ∈ acc, g.1 ≠ k) : setField acc k v = acc ++ [(k, v)] := by
  induction acc with
  | nil => rfl
  | cons g gs ih =>
    obtain ⟨k', v'⟩ := g
    have hk' : ¬ k = k' := fun he => (h (k', v') (List.mem_cons_self _ gs)) he.symm
    rw [setField, if_neg hk', ih (fun g hg => h g (List.mem_cons_of_mem _ hg))]
    rfl

theorem buildJSObject_go (fs : List (List Char × JsValue)) :
    ∀ acc, keysDistinct fs = true → (∀ g ∈ acc, ∀ f ∈ fs, g.1 ≠ f.1) →
      List.foldl (fun a kv => setField a kv.1 kv.2) acc fs = acc ++ fs := by
  induction fs with
  | nil => intro acc _ _; simp
  | cons f fs ih =>
    intro acc hk hd
    obtain ⟨k, v⟩ := f
    rw [keysDistinct, Bool.and_eq_true] at hk
    have hfresh : ∀ f' ∈ fs, f'.1 ≠ k := by
      intro f' hf'
      have hne := hk.1
      rw [Bool.not_eq_true', List.any_eq_false] at hne
      exact beq_eq_false_iff_ne.mp (Bool.not_eq_true _ ▸ hne f' hf')
    rw [List.foldl_cons,
      setField_fresh acc k v (fun g hg => hd g hg (k, v) (List.mem_cons_self _ _)),
      ih (acc ++ [(k, v)]) hk.2 ?_]
    · simp
    · intro g hg f' hf'
      rcases List.mem_append.mp hg with hga | hgk
      · exact hd g hga f' (List.mem_cons_of_mem _ hf')
      · rw [List.mem_singleton] at hgk
        subst hgk
        exact fun he => (hfresh f' hf') he.symm

theorem buildJSObject_distinct (fs : List (List Char × JsValue))
    (h : keysDistinct fs = true) : buildJSObject fs = fs := by
  rw [buildJSObject, buildJSObject_go fs [] h (by intro g hg; cases hg)]
  rfl

/-! Shape of serialized element and member lists. -/

theorem joinSep_one (sep e : List Char) : joinSep sep [e] = e := rfl

theorem joinSep_two (sep e e2 : List Char) (es : List (List Char)) :
    joinSep sep (e :: e2 :: es) = e ++ sep ++ joinSep sep (e2 :: es) := rfl

theorem joinSep_cons_eq (sep e : List Char) (es : List (List Char)) :
    ∃ w, joinSep sep (e :: es) = e ++ w := by
  cases es with
  | nil => exact ⟨[], by simp [joinSep_one]⟩
  | cons e2 es =>
    exact ⟨sep ++ joinSep sep (e2 :: es), by rw [joinSep_two]; simp [List.append_assoc]⟩

theorem serializeElements_cons_ok {x : JsValue} {xs : List JsValue} {d : Nat}
    {es : List (List Char)} (hx : jsonable x = true)
    (h : serializeElements (x :: xs) d = some es) :
    ∃ s es', serializeJSONProperty x d = .ok s ∧ serializeElements xs d = some es' ∧
      es = s :: es' := by
  obtain ⟨s, hs⟩ := serialize_ok_of_jsonable x hx d
  cases hse : serializeElements xs d with
  | none => simp [serializeElements, hs, hse] at h
  | some es' =>
    simp [serializeElements, hs, hse] at h
    exact ⟨s, es', hs, rfl, h.symm⟩

theorem serializeElements_nil_of {xs : List JsValue} {d : Nat}
    (h : serializeElements xs d = some []) : xs = [] := by
  cases xs with
  | nil => rfl
  | cons x xs =>
    cases hsx : serializeJSONProperty x d <;> cases hse : serializeElements xs d <;>
      simp [serializeElements, hsx, hse] at h

theorem serializeMembers_cons_ok {k : List Char} {v : JsValue}
    {fs : List (List Char × JsValue)} {d : Nat} {ms : List (List Char)}
    (hv : jsonable v = true) (h : serializeMembers ((k, v) :: fs) d = some ms) :
    ∃ sv ms', serializeJSONProperty v d = .ok sv ∧ serializeMembers fs d = some ms' ∧
      ms = (quoteString k ++ ':' :: ' ' :: sv) :: ms' := by
  obtain ⟨sv, hsv⟩ := serialize_ok_of_jsonable v hv d
  cases hse : serializeMembers fs d with
  | none => simp [serializeMembers, hsv, hse] at h
  | some ms' =>
    simp [serializeMembers, hsv, hse] at h
    exact ⟨sv, ms', hsv, rfl, h.symm⟩

theorem serializeMembers_nil_of {fs : List (List Char × JsValue)} {d : Nat}
    (hj : jsonableFields fs = true) (h : serializeMembers fs d = some []) : fs = [] := by
  cases fs with
  | nil => rfl
  | cons g fs'
  => obtain ⟨k, v⟩ := g
     have hv : jsonable v = true := by
       rw [jsonableFields, Bool.and_eq_true] at hj
       exact hj.1
     obtain ⟨sv, hsv⟩ := serialize_ok_of_jsonable v hv d
     cases hse : serializeMembers fs' d <;> simp [serializeMembers, hsv, hse] at h

/-! Parser dispatch on the first significant character. -/

theorem parseVal_number_dispatch (f : Nat) (c : Char) (t : List Char)
    (hws : isWsChar c = false) (hn : c ≠ 'n') (ht : c ≠ 't') (hf : c ≠ 'f')
    (hq : c ≠ '"') (hbk : c ≠ '[') (hbc : c ≠ lcurly) :
    parseVal (f + 1) (c :: t)
      = (parseIntNum (c :: t)).map (fun r => (JsValue.num r.1, r.2)) := by
  rw [parseVal, skipWs_cons_not _ hws]
  simp [hn, ht, hf, hq, hbk, hbc]

theorem parseVal_quote (f : Nat) (r : List Char) :
    parseVal (f + 1) ('"' :: r) = (parseStringBody r).map (fun p => (JsValue.str p.1, p.2)) := by
  rw [parseVal, skipWs_cons_not _ (by decide)]
  rfl

theorem parseVal_brackets_cons (f : Nat) (r : List Char) (c2 : Char) (rest2 : List Char)
    (hskip : skipWs r = c2 :: rest2) (hne : c2 ≠ ']') :
    parseVal (f + 1) ('[' :: r) = (parseElems f r).map (fun p => (JsValue.arr p.1, p.2)) := by
  have hstep : parseVal (f + 1) ('[' :: r)
      = (match skipWs r with
         | [] => none
         | c2 :: rest2 =>
           if c2 = ']' then some (JsValue.arr [], rest2)
           else (parseElems f r).map (fun p => (JsValue.arr p.1, p.2))) := by
    rw [parseVal, skipWs_cons_not _ (by decide)]
    rfl
  rw [hstep, hskip]
  simp [hne]

theorem parseVal_braces_cons (f : Nat) (r : List Char) (c2 : Char) (rest2 : List Char)
    (hskip : skipWs r = c2 :: rest2) (hne : c2 ≠ rcurly) :
    parseVal (f + 1) (lcurly :: r)
      = (parseMembers f r).map (fun p => (JsValue.obj (buildJSObject p.1), p.2)) := by
  have hstep : parseVal (f + 1) (lcurly :: r)
      = (match skipWs r with
         | [] => none
         | c2 :: rest2 =>
           if c2 = rcurly then some (JsValue.obj [], rest2)
           else (parseMembers f r).map (fun p => (JsValue.obj (buildJSObject p.1), p.2))) := by
    rw [parseVal, skipWs_cons_not _ (by decide)]
    rfl
  rw [hstep, hskip]
  simp [hne]

theorem parseMembers_quote (f : Nat) (r : List Char) :
    parseMembers (f + 1) ('"' :: r)
      = (parseStringBody r).bind (fun kr =>
          match skipWs kr.2 with
          | [] => none
          | c2 :: rest2 =>
            if c2 = ':' then
              (parseVal f rest2).bind (fun vr =>
                match skipWs vr.2 with
                | [] => none
                | c3 :: rest3 =>
                  if c3 = ',' then
                    (parseMembers f rest3).map (fun r2 => ((kr.1, vr.1) :: r2.1, r2.2))
                  else if c3 = rcurly then some ([(kr.1, vr.1)], rest3)
                  else none)
            else none) := by
  rw [parseMembers, skipWs_cons_not _ (by decide)]
  rfl

/-! The round-trip: parsing a serialized JSON-representable value recovers it. -/

mutual

theorem rtVal : ∀ (f : Nat) (x : JsValue) (d : Nat) (s rest : List Char),
    jsonable x = true → serializeJSONProperty x d = .ok s →
    s.length < f → numSafe rest = true →
    parseVal f (s ++ rest) = some (x, rest)
  | 0, _, _, s, _ => by
    intro _ _ hlen _
    omega
  | f + 1, .undef, _, _, _ => by
    intro hj _ _ _
    exact absurd hj (by simp [jsonable])
  | f + 1, .func, _, _, _ => by
    intro hj _ _ _
    exact absurd hj (by simp [jsonable])
  | f + 1, .sym, _, _, _ => by
    intro hj _ _ _
    exact absurd hj (by simp [jsonable])
  | f + 1, .bigint _, _, _, _ => by
    intro hj _ _ _
    exact absurd hj (by simp [jsonable])
  | f + 1, .null, d, s, rest => by
    intro _ hok _ _
    simp [serializeJSONProperty] at hok
    subst hok
    rw [show (['n', 'u', 'l', 'l'] : List Char) ++ rest = 'n' :: 'u' :: 'l' :: 'l' :: rest
      from rfl]
    rw [parseVal, skipWs_cons_not _ (by decide)]
    rfl
  | f + 1, .bool true, d, s, rest => by
    intro _ hok _ _
    simp [serializeJSONProperty] at hok
    subst hok
    rw [show (['t', 'r', 'u', 'e'] : List Char) ++ rest = 't' :: 'r' :: 'u' :: 'e' :: rest
      from rfl]
    rw [parseVal, skipWs_cons_not _ (by decide)]
    rfl
  | f + 1, .bool false, d, s, rest => by
    intro _ hok _ _
    simp [serializeJSONProperty] at hok
    subst hok
    rw [show (['f', 'a', 'l', 's', 'e'] : List Char) ++ rest
        = 'f' :: 'a' :: 'l' :: 's' :: 'e' :: rest from rfl]
    rw [parseVal, skipWs_cons_not _ (by decide)]
    rfl
  | f + 1, .num n, d, s, rest => by
    intro _ hok _ hrest
    simp [serializeJSONProperty] at hok
    subst hok
    by_cases hneg : n < 0
    · have hshape : intChars n ++ rest = '-' :: (natChars n.natAbs ++ rest) := by
        rw [intChars, if_pos hneg]
        rfl
      have hminus : isWsChar '-' = false ∧ ('-' : Char) ≠ 'n' ∧ ('-' : Char) ≠ 't' ∧
          ('-' : Char) ≠ 'f' ∧ ('-' : Char) ≠ '"' ∧ ('-' : Char) ≠ '[' ∧ '-' ≠ lcurly := by
        decide
      obtain ⟨q1, q2, q3, q4, q5, q6, q7⟩ := hminus
      rw [hshape, parseVal_number_dispatch f '-' _ q1 q2 q3 q4 q5 q6 q7,
        ← hshape, parseIntNum_intChars n rest hrest]
      rfl
    · obtain ⟨c, t, hct, hc⟩ := natChars_head n.natAbs
      obtain ⟨hn, ht, hf2, hq, hbk, hbc, hws, _, _, _⟩ := digit_facts hc
      have hshape : intChars n ++ rest = c :: (t ++ rest) := by
        rw [intChars, if_neg hneg, hct]
        rfl
      rw [hshape, parseVal_number_dispatch f c _ hws hn ht hf2 hq hbk hbc,
        ← hshape, parseIntNum_intChars n rest hrest]
      rfl
  | f + 1, .str s', d, s, rest => by
    intro _ hok _ _
    simp [serializeJSONProperty] at hok
    subst hok
    have hshape : quoteString s' ++ rest = '"' :: (escapeList s' ++ '"' :: rest) := by
      rw [quoteString]
      simp
    rw [hshape, parseVal_quote, parseStringBody_escapeList]
    rfl
  | f + 1, .arr xs, d, s, rest => by
    intro hj hok hlen hrest
    rw [jsonable] at hj
    cases hse : serializeElements xs (d + 1) with
    | none => simp [serializeJSONProperty, hse] at hok
    | some es =>
      cases es with
      | nil =>
        have hxs : xs = [] := serializeElements_nil_of hse
        subst hxs
        simp [serializeJSONProperty, hse] at hok
        subst hok
        rw [show (['[', ']'] : List Char) ++ rest = '[' :: ']' :: rest from rfl]
        rw [parseVal, skipWs_cons_not _ (by decide)]
        rfl
      | cons e es' =>
        cases xs with
        | nil => simp [serializeElements] at hse
        | cons x xs' =>
          simp [serializeJSONProperty, hse] at hok
          subst hok
          have hx : jsonable x = true := jsonableList_mem hj x (List.mem_cons_self _ _)
          obtain ⟨e1, es1, hs1, hse1, hees⟩ := serializeElements_cons_ok hx hse
          have he1 : e = e1 := by
            have := congrArg (fun l => List.head? l) hees
            simpa using this
          subst he1
          obtain ⟨c1, t1, hct1, hws1, hrb1⟩ := serialize_ok_head x (d + 1) e hs1
          have harg : ('[' :: '\n' ::
              (indentChars (d + 1) ++ (joinSep (',' :: '\n' :: indentChars (d + 1)) (e :: es') ++
               '\n' :: (indentChars d ++ [']'])))) ++ rest
              = '[' :: ('\n' :: (indentChars (d + 1) ++
                  (joinSep (',' :: '\n' :: indentChars (d + 1)) (e :: es') ++
                   '\n' :: (indentChars d ++ ']' :: rest)))) := by
            simp [List.append_assoc]
          rw [harg]
          obtain ⟨w, hw⟩ := joinSep_cons_eq (',' :: '\n' :: indentChars (d + 1)) e es'
          have hskipR : skipWs ('\n' :: (indentChars (d + 1) ++
              (joinSep (',' :: '\n' :: indentChars (d + 1)) (e :: es') ++
               '\n' :: (indentChars d ++ ']' :: rest))))
              = c1 :: (t1 ++ (w ++ '\n' :: (indentChars d ++ ']' :: rest))) := by
            rw [skipWs_nl_indent, hw, hct1]
            rw [show (c1 :: t1) ++ w ++ '\n' :: (indentChars d ++ ']' :: rest)
                = c1 :: (t1 ++ (w ++ '\n' :: (indentChars d ++ ']' :: rest))) from by
              simp [List.append_assoc]]
            exact skipWs_cons_not _ hws1
          rw [parseVal_brackets_cons f _ c1 _ hskipR hrb1]
          rw [show ('\n' :: (indentChars (d + 1) ++
              (joinSep (',' :: '\n' :: indentChars (d + 1)) (e :: es') ++
               '\n' :: (indentChars d ++ ']' :: rest))))
              = ('\n' :: indentChars (d + 1)) ++
                (joinSep (',' :: '\n' :: indentChars (d + 1)) (e :: es') ++
                 '\n' :: (indentChars d ++ ']' :: rest)) from by simp]
          rw [parseElems_ws f _ _ (by
            intro c hc
            rcases List.mem_cons.mp hc with hc1 | hc2
            · rw [hc1]; decide
            · exact indent_all_ws _ c hc2)]
          rw [rtElems f (x :: xs') (d + 1) d (e :: es') rest hj hse (by simp) (by
            simp only [List.length_cons, List.length_append, indentChars,
              List.length_replicate] at hlen ⊢
            omega)]
          rfl
  | f + 1, .obj fs, d, s, rest => by
    intro hj hok hlen hrest
    rw [jsonable, Bool.and_eq_true] at hj
    cases hsm : serializeMembers fs (d + 1) with
    | none => simp [serializeJSONProperty, hsm] at hok
    | some ms =>
      cases ms with
      | nil =>
        have hfs : fs = [] := serializeMembers_nil_of hj.1 hsm
        subst hfs
        simp [serializeJSONProperty, hsm] at hok
        subst hok
        rw [show ([lcurly, rcurly] : List Char) ++ rest = lcurly :: rcurly :: rest from rfl]
        rw [parseVal, skipWs_cons_not _ (by decide)]
        rfl
      | cons m ms' =>
        cases fs with
        | nil => simp [serializeMembers] at hsm
        | cons g fs' =>
          obtain ⟨k, v⟩ := g
          simp [serializeJSONProperty, hsm] at hok
          subst hok
          have hv : jsonable v = true :=
            jsonableFields_mem hj.1 (k, v) (List.mem_cons_self _ _)
          obtain ⟨sv, ms1, hsv, hsm1, hmes⟩ := serializeMembers_cons_ok hv hsm
          have hm : m = quoteString k ++ ':' :: ' ' :: sv := by
            have hh := congrArg (fun l => List.head? l) hmes
            simpa using hh
          have harg : (lcurly :: '\n' ::
              (indentChars (d + 1) ++ (joinSep (',' :: '\n' :: indentChars (d + 1)) (m :: ms') ++
               '\n' :: (indentChars d ++ [rcurly])))) ++ rest
              = lcurly :: ('\n' :: (indentChars (d + 1) ++
                  (joinSep (',' :: '\n' :: indentChars (d + 1)) (m :: ms') ++
                   '\n' :: (indentChars d ++ rcurly :: rest)))) := by
            simp [List.append_assoc]
          rw [harg]
          obtain ⟨w, hw⟩ := joinSep_cons_eq (',' :: '\n' :: indentChars (d + 1)) m ms'
          have hqhead : m = '"' :: ((escapeList k ++ ['"']) ++ ':' :: ' ' :: sv) := by
            rw [hm, quoteString]
            simp [List.append_assoc]
          have hskipR : skipWs ('\n' :: (indentChars (d + 1) ++
              (joinSep (',' :: '\n' :: indentChars (d + 1)) (m :: ms') ++
               '\n' :: (indentChars d ++ rcurly :: rest))))
              = '"' :: (((escapeList k ++ ['"']) ++ ':' :: ' ' :: sv) ++
                  (w ++ '\n' :: (indentChars d ++ rcurly :: rest))) := by
            rw [skipWs_nl_indent, hw, hqhead]
            rw [show ('"' :: ((escapeList k ++ ['"']) ++ ':' :: ' ' :: sv)) ++ w ++
                '\n' :: (indentChars d ++ rcurly :: rest)
                = '"' :: (((escapeList k ++ ['"']) ++ ':' :: ' ' :: sv) ++
                    (w ++ '\n' :: (indentChars d ++ rcurly :: rest))) from by
              simp [List.append_assoc]]
            exact skipWs_cons_not _ (by decide)
          rw [parseVal_braces_cons f _ '"' _ hskipR (by decide)]
          rw [show ('\n' :: (indentChars (d + 1) ++
              (joinSep (',' :: '\n' :: indentChars (d + 1)) (m :: ms') ++
               '\n' :: (indentChars d ++ rcurly :: rest))))
              = ('\n' :: indentChars (d + 1)) ++
                (joinSep (',' :: '\n' :: indentChars (d + 1)) (m :: ms') ++
                 '\n' :: (indentChars d ++ rcurly :: rest)) from by simp]
          rw [parseMembers_ws f _ _ (by
            intro c hc
            rcases List.mem_cons.mp hc with hc1 | hc2
            · rw [hc1]; decide
            · exact indent_all_ws _ c hc2)]
          rw [rtMembers f ((k, v) :: fs') (d + 1) d (m :: ms') rest hj.1 hsm (by simp) (by
            simp only [List.length_cons, List.length_append, indentChars,
              List.length_replicate] at hlen ⊢
            omega)]
          rw [show (some (((k, v) :: fs'), rest)).map
              (fun p => (JsValue.obj (buildJSObject p.1), p.2))
              = some (JsValue.obj (buildJSObject ((k, v) :: fs')), rest) from rfl]
          rw [buildJSObject_distinct ((k, v) :: fs') hj.2]

theorem rtElems : ∀ (f : Nat) (xs : List JsValue) (dm dc : Nat) (es : List (List Char))
    (rest : List Char),
    jsonableList xs = true → serializeElements xs dm = some es → xs ≠ [] →
    (joinSep (',' :: '\n' :: indentChars dm) es).length + 1 < f →
    parseElems f (joinSep (',' :: '\n' :: indentChars dm) es ++
      '\n' :: (indentChars dc ++ ']' :: rest)) = some (xs, rest)
  | 0, _, _, _, _, _ => by
    intro _ _ _ hlen
    omega
  | f + 1, xs, dm, dc, es, rest => by
    intro hj hse hne hlen
    cases xs with
    | nil => exact absurd rfl hne
    | cons x xs' =>
      have hx : jsonable x = true := jsonableList_mem hj x (List.mem_cons_self _ _)
      have hj' : jsonableList xs' = true := by
        rw [jsonableList, Bool.and_eq_true] at hj
        exact hj.2
      obtain ⟨sx, hsx⟩ := serialize_ok_of_jsonable x hx dm
      cases hsse : serializeElements xs' dm with
      | none => simp [serializeElements, hsx, hsse] at hse
      | some es1 =>
        simp [serializeElements, hsx, hsse] at hse
        subst hse
        cases xs' with
        | nil =>
          have hes1 : es1 = [] := by
            simp [serializeElements] at hsse
            exact hsse
          subst hes1
          rw [joinSep_one]
          rw [parseElems]
          rw [rtVal f x dm sx ('\n' :: (indentChars dc ++ ']' :: rest)) hx hsx (by
            rw [joinSep_one] at hlen
            omega) rfl]
          have hskip : skipWs ('\n' :: (indentChars dc ++ ']' :: rest)) = ']' :: rest := by
            rw [skipWs_nl_indent]
            exact skipWs_cons_not _ (by decide)
          simp [hskip]
        | cons x2 xs'' =>
          cases es1 with
          | nil => exact absurd (serializeElements_nil_of hsse) (by simp)
          | cons e2 es2 =>
            obtain ⟨c1, t1, hct1, _, _⟩ := serialize_ok_head x dm sx hsx
            have hsxlen : 1 ≤ sx.length := by
              rw [hct1]
              simp
            rw [joinSep_two]
            have harg : (sx ++ (',' :: '\n' :: indentChars dm) ++
                joinSep (',' :: '\n' :: indentChars dm) (e2 :: es2)) ++
                '\n' :: (indentChars dc ++ ']' :: rest)
                = sx ++ (',' :: ('\n' :: (indentChars dm ++
                    (joinSep (',' :: '\n' :: indentChars dm) (e2 :: es2) ++
                     '\n' :: (indentChars dc ++ ']' :: rest))))) := by
              simp [List.append_assoc]
            rw [harg]
            rw [parseElems]
            rw [rtVal f x dm sx (',' :: ('\n' :: (indentChars dm ++
                (joinSep (',' :: '\n' :: indentChars dm) (e2 :: es2) ++
                 '\n' :: (indentChars dc ++ ']' :: rest))))) hx hsx (by
              rw [joinSep_two] at hlen
              simp only [List.length_append] at hlen
              omega) rfl]
            have hskip2 : skipWs (',' :: ('\n' :: (indentChars dm ++
                (joinSep (',' :: '\n' :: indentChars dm) (e2 :: es2) ++
                 '\n' :: (indentChars dc ++ ']' :: rest)))))
                = ',' :: ('\n' :: (indentChars dm ++
                    (joinSep (',' :: '\n' :: indentChars dm) (e2 :: es2) ++
                     '\n' :: (indentChars dc ++ ']' :: rest)))) :=
              skipWs_cons_not _ (by decide)
            have hE : parseElems f ('\n' :: (indentChars dm ++
                (joinSep (',' :: '\n' :: indentChars dm) (e2 :: es2) ++
                 '\n' :: (indentChars dc ++ ']' :: rest)))) = some (x2 :: xs'', rest) := by
              rw [show ('\n' :: (indentChars dm ++
                  (joinSep (',' :: '\n' :: indentChars dm) (e2 :: es2) ++
                   '\n' :: (indentChars dc ++ ']' :: rest))))
                  = ('\n' :: indentChars dm) ++
                    (joinSep (',' :: '\n' :: indentChars dm) (e2 :: es2) ++
                     '\n' :: (indentChars dc ++ ']' :: rest)) from by simp]
              rw [parseElems_ws f _ _ (by
                intro c hc
                rcases List.mem_cons.mp hc with hc1 | hc2
                · rw [hc1]; decide
                · exact indent_all_ws _ c hc2)]
              exact rtElems f (x2 :: xs'') dm dc (e2 :: es2) rest hj' hsse (by simp) (by
                rw [joinSep_two] at hlen
                simp only [List.length_append] at hlen
                omega)
            simp [hskip2, hE]

theorem rtMembers : ∀ (f : Nat) (fs : List (List Char × JsValue)) (dm dc : Nat)
    (ms : List (List Char)) (rest : List Char),
    jsonableFields fs = true → serializeMembers fs dm = some ms → fs ≠ [] →
    (joinSep (',' :: '\n' :: indentChars dm) ms).length + 1 < f →
    parseMembers f (joinSep (',' :: '\n' :: indentChars dm) ms ++
      '\n' :: (indentChars dc ++ rcurly :: rest)) = some (fs, rest)
  | 0, _, _, _, _, _ => by
    intro _ _ _ hlen
    omega
  | f + 1, fs, dm, dc, ms, rest => by
    intro hj hsm hne hlen
    cases fs with
    | nil => exact absurd rfl hne
    | cons g fs' =>
      obtain ⟨k, v⟩ := g
      have hv : jsonable v = true := jsonableFields_mem hj (k, v) (List.mem_cons_self _ _)
      have hj' : jsonableFields fs' = true := by
        rw [jsonableFields, Bool.and_eq_true] at hj
        exact hj.2
      obtain ⟨sv, hsv⟩ := serialize_ok_of_jsonable v hv dm
      cases hssm : serializeMembers fs' dm with
      | none => simp [serializeMembers, hsv, hssm] at hsm
      | some ms1 =>
        simp [serializeMembers, hsv, hssm] at hsm
        subst hsm
        cases fs' with
        | nil =>
          have hms1 : ms1 = [] := by
            simp [serializeMembers] at hssm
            exact hssm
          subst hms1
          rw [joinSep_one]
          have harg : (quoteString k ++ ':' :: ' ' :: sv) ++
              '\n' :: (indentChars dc ++ rcurly :: rest)
              = '"' :: (escapeList k ++ '"' :: (':' :: (' ' :: (sv ++
                  '\n' :: (indentChars dc ++ rcurly :: rest))))) := by
            rw [quoteString]
            simp [List.append_assoc]
          rw [harg, parseMembers_quote, parseStringBody_escapeList]
          have hV : parseVal f (' ' :: (sv ++ '\n' :: (indentChars dc ++ rcurly :: rest)))
              = some (v, '\n' :: (indentChars dc ++ rcurly :: rest)) := by
            rw [show (' ' :: (sv ++ '\n' :: (indentChars dc ++ rcurly :: rest)))
                = ([' '] : List Char) ++ (sv ++ '\n' :: (indentChars dc ++ rcurly :: rest))
                from rfl]
            rw [parseVal_ws f _ _ (by intro c hc; simp at hc; rw [hc]; decide)]
            exact rtVal f v dm sv _ hv hsv (by
              rw [joinSep_one] at hlen
              rw [quoteString] at hlen
              simp only [List.length_append, List.length_cons] at hlen
              omega) rfl
          have hskipc : skipWs (':' :: (' ' :: (sv ++
              '\n' :: (indentChars dc ++ rcurly :: rest))))
              = ':' :: (' ' :: (sv ++ '\n' :: (indentChars dc ++ rcurly :: rest))) :=
            skipWs_cons_not _ (by decide)
          have hskipZ : skipWs ('\n' :: (indentChars dc ++ rcurly :: rest))
              = rcurly :: rest := by
            rw [skipWs_nl_indent]
            exact skipWs_cons_not _ (by decide)
          simp only [Option.bind, hskipc, hV, hskipZ, reduceIte]
          rw [if_neg (show ¬rcurly = ',' from by decide)]
        | cons g2 fs'' =>
          cases ms1 with
          | nil => exact absurd (serializeMembers_nil_of hj' hssm) (by simp)
          | cons m2 ms2 =>
            rw [joinSep_two]
            have harg : ((quoteString k ++ ':' :: ' ' :: sv) ++
                (',' :: '\n' :: indentChars dm) ++
                joinSep (',' :: '\n' :: indentChars dm) (m2 :: ms2)) ++
                '\n' :: (indentChars dc ++ rcurly :: rest)
                = '"' :: (escapeList k ++ '"' :: (':' :: (' ' :: (sv ++
                    (',' :: ('\n' :: (indentChars dm ++
                      (joinSep (',' :: '\n' :: indentChars dm) (m2 :: ms2) ++
                       '\n' :: (indentChars dc ++ rcurly :: rest))))))))) := by
              rw [quoteString]
              simp [List.append_assoc]
            rw [harg, parseMembers_quote, parseStringBody_escapeList]
            have hV : parseVal f (' ' :: (sv ++ (',' :: ('\n' :: (indentChars dm ++
                (joinSep (',' :: '\n' :: indentChars dm) (m2 :: ms2) ++
                 '\n' :: (indentChars dc ++ rcurly :: rest)))))))
                = some (v, ',' :: ('\n' :: (indentChars dm ++
                    (joinSep (',' :: '\n' :: indentChars dm) (m2 :: ms2) ++
                     '\n' :: (indentChars dc ++ rcurly :: rest))))) := by
              rw [show (' ' :: (sv ++ (',' :: ('\n' :: (indentChars dm ++
                  (joinSep (',' :: '\n' :: indentChars dm) (m2 :: ms2) ++
                   '\n' :: (indentChars dc ++ rcurly :: rest)))))))
                  = ([' '] : List Char) ++ (sv ++ (',' :: ('\n' :: (indentChars dm ++
                    (joinSep (',' :: '\n' :: indentChars dm) (m2 :: ms2) ++
                     '\n' :: (indentChars dc ++ rcurly :: rest)))))) from rfl]
              rw [parseVal_ws f _ _ (by intro c hc; simp at hc; rw [hc]; decide)]
              exact rtVal f v dm sv _ hv hsv (by
                rw [joinSep_two] at hlen
                rw [quoteString] at hlen
                simp only [List.length_append, List.length_cons] at hlen
                omega) rfl
            have hskipc : skipWs (':' :: (' ' :: (sv ++ (',' :: ('\n' :: (indentChars dm ++
                (joinSep (',' :: '\n' :: indentChars dm) (m2 :: ms2) ++
                 '\n' :: (indentChars dc ++ rcurly :: rest))))))))
                = ':' :: (' ' :: (sv ++ (',' :: ('\n' :: (indentChars dm ++
                    (joinSep (',' :: '\n' :: indentChars dm) (m2 :: ms2) ++
                     '\n' :: (indentChars dc ++ rcurly :: rest))))))) :=
              skipWs_cons_not _ (by decide)
            have hskip3 : skipWs (',' :: ('\n' :: (indentChars dm ++
                (joinSep (',' :: '\n' :: indentChars dm) (m2 :: ms2) ++
                 '\n' :: (indentChars dc ++ rcurly :: rest)))))
                = ',' :: ('\n' :: (indentChars dm ++
                    (joinSep (',' :: '\n' :: indentChars dm) (m2 :: ms2) ++
                     '\n' :: (indentChars dc ++ rcurly :: rest)))) :=
              skipWs_cons_not _ (by decide)
            have hM : parseMembers f ('\n' :: (indentChars dm ++
                (joinSep (',' :: '\n' :: indentChars dm) (m2 :: ms2) ++
                 '\n' :: (indentChars dc ++ rcurly :: rest)))) = some ((g2 :: fs''), rest) := by
              rw [show ('\n' :: (indentChars dm ++
                  (joinSep (',' :: '\n' :: indentChars dm) (m2 :: ms2) ++
                   '\n' :: (indentChars dc ++ rcurly :: rest))))
                  = ('\n' :: indentChars dm) ++
                    (joinSep (',' :: '\n' :: indentChars dm) (m2 :: ms2) ++
                     '\n' :: (indentChars dc ++ rcurly :: rest)) from by simp]
              rw [parseMembers_ws f _ _ (by
                intro c hc
                rcases List.mem_cons.mp hc with hc1 | hc2
                · rw [hc1]; decide
                · exact indent_all_ws _ c hc2)]
              exact rtMembers f (g2 :: fs'') dm dc (m2 :: ms2) rest hj' hssm (by simp) (by
                rw [joinSep_two] at hlen
                simp only [List.length_append, List.length_cons] at hlen
                omega)
            simp only [Option.bind, hskipc, hV, hskip3, hM, reduceIte, Option.map_some]
            rfl

end

/-! Claim theorems. -/

/-- C1: for every JSON-representable value x (no undefined, function,
symbol or BigInt anywhere and distinct object keys), formatState x
produces a string, and standard JSON parsing of that string yields a value
deep-equal (structurally equal) to x: formatState round-trips. -/
theorem formatState_roundtrip (x : JsValue) (h : jsonable x = true) :
    ∃ s, formatState x = SerResult.ok s ∧ jsonParse s = some x := by
  obtain ⟨s, hs⟩ := serialize_ok_of_jsonable x h 0
  refine ⟨s, by rw [formatState, JSONstringifyPretty2]; exact hs, ?_⟩
  have hp : parseVal (s.length + 1) (s ++ []) = some (x, []) :=
    rtVal (s.length + 1) x 0 s [] h hs (by omega) rfl
  rw [List.append_nil] at hp
  simp [jsonParse, hp, skipWs]

/-- Witness for C1 at a concrete object with a nested array. -/
theorem formatState_roundtrip_witness :
    jsonable (JsValue.obj [(['a'], JsValue.num 1),
      (['b'], JsValue.arr [JsValue.bool true, JsValue.null])]) = true ∧
    ∃ s, formatState (JsValue.obj [(['a'], JsValue.num 1),
      (['b'], JsValue.arr [JsValue.bool true, JsValue.null])]) = SerResult.ok s ∧
      jsonParse s = some (JsValue.obj [(['a'], JsValue.num 1),
        (['b'], JsValue.arr [JsValue.bool true, JsValue.null])]) :=
  ⟨by simp [jsonable, jsonableList, jsonableFields, keysDistinct],
   formatState_roundtrip _
     (by simp [jsonable, jsonableList, jsonableFields, keysDistinct])⟩

/-- C6: formatState is exactly the one-line wrap of the standard library
serialization primitive applied with a two-space indent: for every value x,
formatState x equals JSON.stringify(x, null, 2). -/
theorem formatState_is_stringify_wrap (x : JsValue) :
    formatState x = JSONstringifyPretty2 x := rfl

/-! Throwing behaviour of the serializer. -/

theorem serialize_thrown_iff (x : JsValue) :
    ∀ d : Nat, serializeJSONProperty x d = SerResult.thrown ↔ hasBigint x = true := by
  induction x using JsValue.inductionOn with
  | hundef => intro d; simp [serializeJSONProperty, hasBigint]
  | hnull => intro d; simp [serializeJSONProperty, hasBigint]
  | hbool b => intro d; cases b <;> simp [serializeJSONProperty, hasBigint]
  | hnum n => intro d; simp [serializeJSONProperty, hasBigint]
  | hstr s => intro d; simp [serializeJSONProperty, hasBigint]
  | hbig n => intro d; simp [serializeJSONProperty, hasBigint]
  | hfunc => intro d; simp [serializeJSONProperty, hasBigint]
  | hsym => intro d; simp [serializeJSONProperty, hasBigint]
  | harr xs hp =>
    have hlist : ∀ d : Nat, serializeElements xs d = none ↔ hasBigintList xs = true := by
      induction xs with
      | nil => intro d; simp [serializeElements, hasBigintList]
      | cons y ys ih =>
        intro d
        have hy := hp y (List.mem_cons_self _ _)
        have hys := ih (fun z hz => hp z (List.mem_cons_of_mem _ hz))
        cases hsy : serializeJSONProperty y d with
        | thrown =>
          have hby : hasBigint y = true := (hy d).mp hsy
          simp [serializeElements, hsy, hasBigintList, hby]
        | ok s =>
          have hby : hasBigint y = false := by
            by_contra hb
            rw [Bool.not_eq_false] at hb
            have hth := (hy d).mpr hb
            rw [hsy] at hth
            exact absurd hth (by simp)
          cases hsys : serializeElements ys d with
          | none =>
            have hbys : hasBigintList ys = true := (hys d).mp hsys
            simp [serializeElements, hsy, hsys, hasBigintList, hby, hbys]
          | some es =>
            have hbys : hasBigintList ys = false := by
              by_contra hb
              rw [Bool.not_eq_false] at hb
              have hn := (hys d).mpr hb
              rw [hsys] at hn
              exact absurd hn (by simp)
            simp [serializeElements, hsy, hsys, hasBigintList, hby, hbys]
        | undef =>
          have hby : hasBigint y = false := by
            by_contra hb
            rw [Bool.not_eq_false] at hb
            have hth := (hy d).mpr hb
            rw [hsy] at hth
            exact absurd hth (by simp)
          cases hsys : serializeElements ys d with
          | none =>
            have hbys : hasBigintList ys = true := (hys d).mp hsys
            simp [serializeElements, hsy, hsys, hasBigintList, hby, hbys]
          | some es =>
            have hbys : hasBigintList ys = false := by
              by_contra hb
              rw [Bool.not_eq_false] at hb
              have hn := (hys d).mpr hb
              rw [hsys] at hn
              exact absurd hn (by simp)
            simp [serializeElements, hsy, hsys, hasBigintList, hby, hbys]
    intro d
    rw [show hasBigint (JsValue.arr xs) = hasBigintList xs from by simp [hasBigint]]
    cases hse : serializeElements xs (d + 1) with
    | none =>
      have := (hlist (d + 1)).mp hse
      simp [serializeJSONProperty, hse, this]
    | some es =>
      have hnb : hasBigintList xs = false := by
        by_contra hb
        rw [Bool.not_eq_false] at hb
        have hn := (hlist (d + 1)).mpr hb
        rw [hse] at hn
        exact absurd hn (by simp)
      cases es <;> simp [serializeJSONProperty, hse, hnb]
  | hobj fs hp =>
    have hlist : ∀ d : Nat, serializeMembers fs d = none ↔ hasBigintFields fs = true := by
      induction fs with
      | nil => intro d; simp [serializeMembers, hasBigintFields]
      | cons g gs ih =>
        intro d
        obtain ⟨k, v⟩ := g
        have hy := hp (k, v) (List.mem_cons_self _ _)
        have hys := ih (fun z hz => hp z (List.mem_cons_of_mem _ hz))
        cases hsy : serializeJSONProperty v d with
        | thrown =>
          have hby : hasBigint v = true := (hy d).mp hsy
          simp [serializeMembers, hsy, hasBigintFields, hby]
        | ok s =>
          have hby : hasBigint v = false := by
            by_contra hb
            rw [Bool.not_eq_false] at hb
            have hth := (hy d).mpr hb
            rw [hsy] at hth
            exact absurd hth (by simp)
          cases hsys : serializeMembers gs d with
          | none =>
            have hbys : hasBigintFields gs = true := (hys d).mp hsys
            simp [serializeMembers, hsy, hsys, hasBigintFields, hby, hbys]
          | some ms =>
            have hbys : hasBigintFields gs = false := by
              by_contra hb
              rw [Bool.not_eq_false] at hb
              have hn := (hys d).mpr hb
              rw [hsys] at hn
              exact absurd hn (by simp)
            simp [serializeMembers, hsy, hsys, hasBigintFields, hby, hbys]
        | undef =>
          have hby : hasBigint v = false := by
            by_contra hb
            rw [Bool.not_eq_false] at hb
            have hth := (hy d).mpr hb
            rw [hsy] at hth
            exact absurd hth (by simp)
          cases hsys : serializeMembers gs d with
          | none =>
            have hbys : hasBigintFields gs = true := (hys d).mp hsys
            simp [serializeMembers, hsy, hsys, hasBigintFields, hby, hbys]
          | some ms =>
            have hbys : hasBigintFields gs = false := by
              by_contra hb
              rw [Bool.not_eq_false] at hb
              have hn := (hys d).mpr hb
              rw [hsys] at hn
              exact absurd hn (by simp)
            simp [serializeMembers, hsy, hsys, hasBigintFields, hby, hbys]
    intro d
    rw [show hasBigint (JsValue.obj fs) = hasBigintFields fs from by simp [hasBigint]]
    cases hsm : serializeMembers fs (d + 1) with
    | none =>
      have := (hlist (d + 1)).mp hsm
      simp [serializeJSONProperty, hsm, this]
    | some ms =>
      have hnb : hasBigintFields fs = false := by
        by_contra hb
        rw [Bool.not_eq_false] at hb
        have hn := (hlist (d + 1)).mpr hb
        rw [hsm] at hn
        exact absurd hn (by simp)
      cases ms <;> simp [serializeJSONProperty, hsm, hnb]

/-! Validity of the formatted timestamp. -/

theorem toISOString_valid (t : JsDate) (h : t.valid) :
    isValidISO8601 (toISOString t) = true := by
  obtain ⟨hy, hm1, hm2, hd1, hd2, hh, hmi, hs, hms⟩ := h
  have hdig : ∀ n, isDigitChar (decChar n) = true := fun n => (decChar_spec n).1
  have hval : ∀ n, digitVal (decChar n) = n % 10 := fun n => (decChar_spec n).2
  simp only [toISOString, pad2, pad3, pad4, List.cons_append, List.nil_append,
    List.append_nil, isValidISO8601, hdig, hval, Bool.and_eq_true, decide_eq_true_eq]
  simp only [beq_self_eq_true, and_true, true_and]
  omega

/-- C2 counterexample: the data argument 0 is provided yet the emitted
line is identical to the call without data — the code's branch tests
truthiness, not presence, so a provided falsy datum is dropped. -/
theorem logWithTimestamp_provided_zero_dropped :
    logWithTimestamp ⟨2024, 5, 17, 12, 34, 56, 789⟩ ['h', 'i'] (some (JsValue.num 0))
      = logWithTimestamp ⟨2024, 5, 17, 12, 34, 56, 789⟩ ['h', 'i'] none := by
  simp [logWithTimestamp, dataTruthy, truthy]

/-- C2 (amended): logWithTimestamp emits exactly one console entry whose
line is the bracketed valid ISO-8601 timestamp, a space and the message
(followed by a colon when data is attached), and the data argument is
attached exactly when it is provided and truthy. -/
theorem logWithTimestamp_one_stamped_line (now : JsDate) (message : List Char)
    (data : Option JsValue) (h : now.valid) :
    (logWithTimestamp now message data).length = 1 ∧
    isValidISO8601 (toISOString now) = true ∧
    (∃ tail, ((logWithTimestamp now message data).headD ([], none)).1
        = '[' :: (toISOString now ++ ']' :: ' ' :: (message ++ tail))) ∧
    ((logWithTimestamp now message data).headD ([], none)).2
      = (if dataTruthy data then data else none) := by
  cases hdt : dataTruthy data with
  | false =>
    exact ⟨by simp [logWithTimestamp, hdt], toISOString_valid now h,
      ⟨[], by simp [logWithTimestamp, hdt]⟩, by simp [logWithTimestamp, hdt]⟩
  | true =>
    exact ⟨by simp [logWithTimestamp, hdt], toISOString_valid now h,
      ⟨[':'], by simp [logWithTimestamp, hdt]⟩, by simp [logWithTimestamp, hdt]⟩

/-- Witness for C2 at a concrete date, message and attached value. -/
theorem logWithTimestamp_one_stamped_line_witness :
    JsDate.valid ⟨2024, 5, 17, 12, 34, 56, 789⟩ ∧
    ((logWithTimestamp ⟨2024, 5, 17, 12, 34, 56, 789⟩ ['h', 'i']
        (some (JsValue.num 3))).length = 1 ∧
      isValidISO8601 (toISOString ⟨2024, 5, 17, 12, 34, 56, 789⟩) = true ∧
      (∃ tail, ((logWithTimestamp ⟨2024, 5, 17, 12, 34, 56, 789⟩ ['h', 'i']
          (some (JsValue.num 3))).headD ([], none)).1
          = '[' :: (toISOString ⟨2024, 5, 17, 12, 34, 56, 789⟩ ++
              ']' :: ' ' :: (['h', 'i'] ++ tail))) ∧
      ((logWithTimestamp ⟨2024, 5, 17, 12, 34, 56, 789⟩ ['h', 'i']
          (some (JsValue.num 3))).headD ([], none)).2
        = (if dataTruthy (some (JsValue.num 3)) then some (JsValue.num 3) else none)) :=
  ⟨by simp [JsDate.valid],
   logWithTimestamp_one_stamped_line ⟨2024, 5, 17, 12, 34, 56, 789⟩ ['h', 'i']
     (some (JsValue.num 3)) (by simp [JsDate.valid])⟩

/-- C9: the data-appending branch is taken exactly when the provided data
argument is truthy; with a provided falsy argument the call emits the very
same line as the data-free call. -/
theorem logWithTimestamp_truthiness (now : JsDate) (message : List Char) (d : JsValue) :
    (truthy d = false →
      logWithTimestamp now message (some d) = logWithTimestamp now message none) ∧
    (((logWithTimestamp now message (some d)).headD ([], none)).2 ≠ none ↔
      truthy d = true) := by
  cases htr : truthy d with
  | false => simp [logWithTimestamp, dataTruthy, htr]
  | true => simp [logWithTimestamp, dataTruthy, htr]

/-- Witness for C9 at a concrete falsy datum (the number 0). -/
theorem logWithTimestamp_truthiness_witness :
    truthy (JsValue.num 0) = false ∧
    logWithTimestamp ⟨2024, 5, 17, 12, 0, 0, 0⟩ ['o', 'k'] (some (JsValue.num 0))
      = logWithTimestamp ⟨2024, 5, 17, 12, 0, 0, 0⟩ ['o', 'k'] none :=
  ⟨by decide,
   (logWithTimestamp_truthiness ⟨2024, 5, 17, 12, 0, 0, 0⟩ ['o', 'k'] (JsValue.num 0)).1
     (by decide)⟩

/-! Undefined results of the serializer. -/

theorem serialize_undef_iff (x : JsValue) (d : Nat) :
    serializeJSONProperty x d = SerResult.undef ↔ nonSerializableTop x = true := by
  cases x with
  | undef => simp [serializeJSONProperty, nonSerializableTop]
  | func => simp [serializeJSONProperty, nonSerializableTop]
  | sym => simp [serializeJSONProperty, nonSerializableTop]
  | bigint n => simp [serializeJSONProperty, nonSerializableTop]
  | null => simp [serializeJSONProperty, nonSerializableTop]
  | bool b => cases b <;> simp [serializeJSONProperty, nonSerializableTop]
  | num n => simp [serializeJSONProperty, nonSerializableTop]
  | str s => simp [serializeJSONProperty, nonSerializableTop]
  | arr xs =>
    cases hse : serializeElements xs (d + 1) with
    | none => simp [serializeJSONProperty, hse, nonSerializableTop]
    | some es => cases es <;> simp [serializeJSONProperty, hse, nonSerializableTop]
  | obj fs =>
    cases hsm : serializeMembers fs (d + 1) with
    | none => simp [serializeJSONProperty, hsm, nonSerializableTop]
    | some ms => cases ms <;> simp [serializeJSONProperty, hsm, nonSerializableTop]

/-- C3 counterexample: formatState applied to the value undefined does not
return a string (JSON.stringify returns undefined there), refuting the
claim that every input yields a string of indented text. -/
theorem formatState_undefined_no_string :
    (formatState JsValue.undef).isString = false := by
  simp [formatState, JSONstringifyPretty2, serializeJSONProperty, SerResult.isString]

/-- C3 (amended): formatState x returns a string exactly when x is not
undefined, a function or a symbol (where JSON.stringify returns undefined)
and contains no BigInt (where it throws). -/
theorem formatState_string_iff (x : JsValue) :
    (formatState x).isString = (!nonSerializableTop x && !hasBigint x) := by
  have h1 := serialize_undef_iff x 0
  have h2 := serialize_thrown_iff x 0
  cases hres : serializeJSONProperty x 0 with
  | ok s =>
    have hn1 : nonSerializableTop x = false := by
      by_contra hb
      rw [Bool.not_eq_false] at hb
      have hu := h1.mpr hb
      rw [hres] at hu
      exact absurd hu (by simp)
    have hn2 : hasBigint x = false := by
      by_contra hb
      rw [Bool.not_eq_false] at hb
      have ht := h2.mpr hb
      rw [hres] at ht
      exact absurd ht (by simp)
    simp [formatState, JSONstringifyPretty2, hres, SerResult.isString, hn1, hn2]
  | undef =>
    have hu := h1.mp hres
    simp [formatState, JSONstringifyPretty2, hres, SerResult.isString, hu]
  | thrown =>
    have ht := h2.mp hres
    simp [formatState, JSONstringifyPretty2, hres, SerResult.isString, ht]

/-- C4 counterexample: formatState throws a TypeError on a BigInt value,
refuting the claim that no helper has an error condition. -/
theorem formatState_bigint_throws :
    formatState (JsValue.bigint 1) = SerResult.thrown := by
  simp [formatState, JSONstringifyPretty2, serializeJSONProperty]

/-- C4 (amended): sleep, generateId and logWithTimestamp have no error
condition (they are total), and formatState throws exactly on inputs
containing a BigInt — on every BigInt-free input it returns normally. -/
theorem formatState_thrown_iff_hasBigint (x : JsValue) :
    formatState x = SerResult.thrown ↔ hasBigint x = true :=
  serialize_thrown_iff x 0

/-! Character set of generateId. -/

theorem base36Digit_mem (n : Nat) : base36Digit n ∈ base36Alphabet := by
  have h : n % 36 < 36 := Nat.mod_lt _ (by omega)
  unfold base36Digit
  generalize hg : n % 36 = m at *
  interval_cases m <;> decide

/-- C5: every character of generateId's result is drawn from the fixed
lower-case base-36 alphabet, for every outcome of the random source, and
distinct outcomes can collide — repeated calls are not guaranteed to
return distinct strings. -/
theorem generateId_alphabet :
    (∀ (seed : Nat) (c : Char), c ∈ generateId seed → c ∈ base36Alphabet) ∧
    (∃ s1 s2 : Nat, s1 ≠ s2 ∧ generateId s1 = generateId s2) := by
  constructor
  · intro seed c hc
    rw [generateId, substrJS] at hc
    have hc' : c ∈ (numToString36 (randFrac seed)).drop 2 := List.take_subset _ _ hc
    by_cases hk : randFrac seed = 0
    · rw [numToString36, if_pos hk] at hc'
      simp at hc'
    · rw [numToString36, if_neg hk] at hc'
      rw [show (('0' :: '.' ::
          (stripZeros (frac36digits (randFrac seed))).map base36Digit).drop 2)
          = (stripZeros (frac36digits (randFrac seed))).map base36Digit from rfl] at hc'
      obtain ⟨dv, _, hdv⟩ := List.mem_map.mp hc'
      rw [← hdv]
      exact base36Digit_mem dv
  · exact ⟨1, 2, by omega, by decide⟩

/-- Witness for C5: the digit 0 occurs in a concrete id and indeed lies in
the alphabet. -/
theorem generateId_alphabet_witness :
    '0' ∈ generateId 1 ∧ '0' ∈ base36Alphabet :=
  ⟨by decide, generateId_alphabet.1 1 '0' (by decide)⟩

/-- C10: generateId never returns more than 9 characters, and some
outcomes give strictly fewer — the source returning 0 gives the empty
string, and the source returning one half gives the single character i. -/
theorem generateId_length_bounds :
    (∀ seed : Nat, (generateId seed).length ≤ 9) ∧ generateId 0 = [] ∧
      generateId (2 ^ 52) = ['i'] := by
  refine ⟨?_, by decide, by decide⟩
  intro seed
  rw [generateId, substrJS]
  exact List.length_take_le _ _

/-- C8: the helpers are stateless. A formatState call returns the same
string in any two ambient contexts (determinism: any two calls on equal
arguments agree) and leaves the context untouched; sleep changes no
ambient call state; generateId touches only the random stream; and
logWithTimestamp only appends its entry to the console, leaving the
stream and clock alone. No helper retains state between calls. -/
theorem utilities_stateless :
    (∀ (w w' : CallCtx) (x : JsValue), (callFormatState w x).1 = (callFormatState w' x).1) ∧
    (∀ (w : CallCtx) (x : JsValue), (callFormatState w x).2 = w) ∧
    (∀ (w : CallCtx) (ms : Nat), callSleep w ms = w) ∧
    (∀ w : CallCtx, (callGenerateId w).2.console = w.console ∧
      (callGenerateId w).2.now = w.now) ∧
    (∀ (w : CallCtx) (m : List Char) (d : Option JsValue),
      (callLogWithTimestamp w m d).randSeeds = w.randSeeds ∧
      (callLogWithTimestamp w m d).now = w.now ∧
      (callLogWithTimestamp w m d).console = w.console ++ logWithTimestamp w.now m d) :=
  ⟨fun _ _ _ => rfl, fun _ _ => rfl, fun _ _ => rfl, fun _ => ⟨rfl, rfl⟩,
   fun _ _ _ => ⟨rfl, rfl, rfl⟩⟩

/-! The timer invariant for sleep. -/

theorem timer_invariant {base : Nat} {id : Nat} {u v : TimerState}
    (hstep : TimerStep u v)
    (hinv : (∀ d, (id, d) ∈ u.timers → d = base) ∧ (id ∈ u.fired → base ≤ u.clock)) :
    (∀ d, (id, d) ∈ v.timers → d = base) ∧ (id ∈ v.fired → base ≤ v.clock) := by
  cases hstep with
  | tick =>
    exact ⟨hinv.1, fun hf => Nat.le_succ_of_le (hinv.2 hf)⟩
  | fire id' due hmem hdue =>
    constructor
    · intro d hd
      exact hinv.1 d (List.mem_of_mem_erase hd)
    · intro hf
      rcases List.mem_cons.mp hf with he | hm
      · subst he
        have hdb := hinv.1 due hmem
        show base ≤ u.clock
        omega
      · exact hinv.2 hm

theorem timer_invariant_reaches {base : Nat} {id : Nat} {u v : TimerState}
    (hr : TimerReaches u v)
    (hinv : (∀ d, (id, d) ∈ u.timers → d = base) ∧ (id ∈ u.fired → base ≤ u.clock)) :
    (∀ d, (id, d) ∈ v.timers → d = base) ∧ (id ∈ v.fired → base ≤ v.clock) := by
  induction hr with
  | refl st => exact hinv
  | step hstep _ ih => exact ih (timer_invariant hstep hinv)

/-- C7: the promise created by sleep(ms) resolves no earlier than ms
milliseconds after the call. If the callback id is fresh, sleep registers
it with the host timer at due time clock + ms, and in every event-loop
run from there, whenever the callback has fired — the promise has
resolved — the clock has advanced by at least ms. -/
theorem sleep_resolves_no_earlier (st : TimerState) (id ms : Nat) (st' : TimerState)
    (hfresh : freshId st id) (hr : TimerReaches (sleep st id ms) st')
    (hf : id ∈ st'.fired) : st.clock + ms ≤ st'.clock := by
  have hinit : (∀ d, (id, d) ∈ (sleep st id ms).timers → d = st.clock + ms) ∧
      (id ∈ (sleep st id ms).fired → st.clock + ms ≤ (sleep st id ms).clock) := by
    constructor
    · intro d hd
      rcases List.mem_append.mp hd with hold | hnew
      · exact absurd rfl (hfresh.1 (id, d) hold)
      · rw [List.mem_singleton] at hnew
        exact (Prod.mk.injEq _ _ _ _ ▸ hnew).2
    · intro hfired
      exact absurd hfired hfresh.2
  exact (timer_invariant_reaches hr hinit).2 hf

/-- Witness for C7: from a fresh context, sleep for 2 milliseconds, tick
twice and fire; the conclusion instantiates to 0 + 2 ≤ 2. -/
theorem sleep_resolves_no_earlier_witness :
    freshId ⟨0, [], []⟩ 0 ∧ (0 : Nat) + 2 ≤ 2 := by
  have hfresh : freshId ⟨0, [], []⟩ 0 := ⟨fun p hp => absurd hp (by simp), by simp⟩
  refine ⟨hfresh, ?_⟩
  have hreach : TimerReaches (sleep ⟨0, [], []⟩ 0 2) ⟨2, [], [0]⟩ := by
    apply TimerReaches.step (TimerStep.tick _)
    apply TimerReaches.step (TimerStep.tick _)
    refine TimerReaches.step (TimerStep.fire ⟨2, [(0, 2)], []⟩ 0 2 (by simp) (by decide)) ?_
    exact TimerReaches.refl _
  exact sleep_resolves_no_earlier ⟨0, [], []⟩ 0 2 ⟨2, [], [0]⟩ hfresh hreach (by simp)
